import Mathlib

/-!
A shallow embedding of the automatic-differentiation engine in `tensor.py`.

Numeric buffers are modelled as flat row-major lists of rationals together
with a shape; `ℚ` stands in for IEEE `float32` (every claim below concerns
exact arithmetic, broadcasting structure, or traversal order, none of which
depends on rounding).  Fallible numpy operations return `Option`, with `none`
standing for the exception numpy would raise.
-/

namespace Autograd

/-- Shapes are lists of dimension sizes, as in numpy. -/
abbrev Shape := List Nat

/-- Number of elements of a shape (product of the dimensions). -/
def prodl (s : Shape) : Nat := s.foldr (· * ·) 1

/-- A dense row-major array: a shape plus the flat list of entries. -/
structure Arr where
  shape : Shape
  data : List ℚ
deriving DecidableEq

/-- Reading the flat buffer, out-of-range reads defaulting to 0. -/
def getA (a : Arr) (i : Nat) : ℚ := a.data.getD i 0

/-- Well-formedness: the flat data has exactly as many entries as the shape
demands. -/
def WFA (a : Arr) : Prop := a.data.length = prodl a.shape

instance (a : Arr) : Decidable (WFA a) := inferInstanceAs (Decidable (_ = _))

/-- An all-zero array: every stored entry is zero. -/
def ZA (a : Arr) : Prop := ∀ q ∈ a.data, q = 0

instance (a : Arr) : Decidable (ZA a) := inferInstanceAs (Decidable (∀ q ∈ a.data, q = 0))

/-- Multi-index of flat index `i` in row-major order. -/
def unflatten : Shape → Nat → List Nat
  | [], _ => []
  | _ :: ds, i => i / prodl ds :: unflatten ds (i % prodl ds)

/-- Flat index of a multi-index in row-major order. -/
def flattenIx : Shape → List Nat → Nat
  | [], _ => 0
  | _ :: _, [] => 0
  | _ :: ds, c :: cs => c * prodl ds + flattenIx ds cs

/-- Flat index into a broadcast operand: numpy aligns trailing axes and reads
index 0 along axes where the operand has size 1. -/
def srcIndex (srcShape : Shape) (c : List Nat) : Nat :=
  flattenIx srcShape
    (List.zipWith (fun d ci => if d = 1 then 0 else ci) srcShape
      (c.drop (c.length - srcShape.length)))

/-- Merge of two reversed shapes under the numpy broadcasting rule. -/
def bcMerge : List Nat → List Nat → Option (List Nat)
  | [], t => some t
  | s, [] => some s
  | a :: s, b :: t =>
    (bcMerge s t).bind fun r =>
      if a = b then some (a :: r)
      else if a = 1 then some (b :: r)
      else if b = 1 then some (a :: r)
      else none

/-- Shape of the result of broadcasting two shapes together, `none` when they
are incompatible. -/
def broadcastShapes (s t : Shape) : Option Shape :=
  (bcMerge s.reverse t.reverse).map List.reverse

/-- Elementwise combination of two arrays under numpy broadcasting
(`a + b`, `a * b`, ...); `none` models the `ValueError` numpy raises on
incompatible shapes. -/
def ewise (f : ℚ → ℚ → ℚ) (a b : Arr) : Option Arr :=
  (broadcastShapes a.shape b.shape).map fun s =>
    ⟨s, (List.range (prodl s)).map fun i =>
      f (getA a (srcIndex a.shape (unflatten s i)))
        (getA b (srcIndex b.shape (unflatten s i)))⟩

/-- Whether `np.broadcast_to` accepts a source shape (given reversed) against a
target shape (given reversed). -/
def canBTo : List Nat → List Nat → Bool
  | [], _ => true
  | _ :: _, [] => false
  | a :: s, b :: t => (a = b || a = 1) && canBTo s t

/-- Model of `np.broadcast_to(a, sh)`. -/
def broadcastTo (a : Arr) (sh : Shape) : Option Arr :=
  if canBTo a.shape.reverse sh.reverse then
    some ⟨sh, (List.range (prodl sh)).map fun i =>
      getA a (srcIndex a.shape (unflatten sh i))⟩
  else none

/-- The array `np.broadcast_to` produces (the `some`-branch of `broadcastTo`)
as a total function, used to state the Broadcast Reducer law. -/
def btA (v : Arr) (S : Shape) : Arr :=
  ⟨S, (List.range (prodl S)).map fun i => getA v (srcIndex v.shape (unflatten S i))⟩

/-- Elementwise scaling of an array. -/
def scaleArr (c : ℚ) (a : Arr) : Arr := ⟨a.shape, a.data.map (c * ·)⟩

/-- Model of the in-place accumulation `cur += x` on numpy buffers: `x` is
broadcast to the shape of `cur` (an exception when impossible) and added
elementwise. -/
def iadd (cur x : Arr) : Option Arr :=
  (broadcastTo x cur.shape).map fun x2 => ⟨cur.shape, List.zipWith (· + ·) cur.data x2.data⟩

/-- Model of the in-place `cur -= x`. -/
def isub (cur x : Arr) : Option Arr :=
  (broadcastTo x cur.shape).map fun x2 => ⟨cur.shape, List.zipWith (· - ·) cur.data x2.data⟩

/-- Model of `grad.sum(axis=0)` (drop the leading axis, summing over it).  The
0-d case is unreachable in `unbroadcast`, which only sums while the rank is
still too large. -/
def sumAxis0 (a : Arr) : Arr :=
  match a.shape with
  | [] => a
  | d :: ds =>
    ⟨ds, (List.range (prodl ds)).map fun i =>
      ((List.range d).map fun k => getA a (k * prodl ds + i)).sum⟩

/-- Model of `grad.sum(axis=j, keepdims=True)`. -/
def sumAxisKeep (a : Arr) (j : Nat) : Arr :=
  ⟨a.shape.set j 1, (List.range (prodl (a.shape.set j 1))).map fun i =>
    ((List.range (a.shape.getD j 1)).map fun k =>
      getA a (flattenIx a.shape ((unflatten (a.shape.set j 1) i).set j k))).sum⟩

/-- Iterated `sum(axis=0)`, modelling the leading-axis `while` loop of
`unbroadcast`. -/
def dropLead : Nat → Arr → Arr
  | 0, g => g
  | k + 1, g => dropLead k (sumAxis0 g)

/-- Model of `unbroadcast(grad, shape)` from `tensor.py`: reduce a gradient
produced under broadcasting back down to `shape`.  A 0-d gradient is first
replicated to `shape` (`np.full`); then leading axes are summed away while the
rank is too large; finally every axis where `shape` has size 1 but the current
gradient does not is summed with `keepdims`.  The Python loop reads
`grad.shape[i]`, which raises `IndexError` when `shape` has size 1 at an axis
beyond the gradient's rank; that unreached corner is modelled as reading
size 1 (a no-op), and no claim below depends on it. -/
def unbroadcast (grad : Arr) (shape : Shape) : Arr :=
  let g0 := if grad.shape = [] then Arr.mk shape (List.replicate (prodl shape) (getA grad 0)) else grad
  let g1 := dropLead (g0.shape.length - shape.length) g0
  (List.range shape.length).foldl
    (fun g i => if shape.getD i 1 = 1 ∧ g.shape.getD i 1 ≠ 1 then sumAxisKeep g i else g) g1

/-- Elementwise map on an array. -/
def mapArr (f : ℚ → ℚ) (a : Arr) : Arr := ⟨a.shape, a.data.map f⟩

/-- Model of 2-d `a @ b`; `none` models the `ValueError` numpy raises when the
ranks are not 2 or the inner dimensions disagree (the spec's `ShapeError`).
Rank-1 and stacked operands are not exercised by the spec's scenarios and are
not modelled. -/
def matmul2d (a b : Arr) : Option Arr :=
  match a.shape, b.shape with
  | [m, n], [n2, q] =>
    if n = n2 then
      some ⟨[m, q], (List.range (m * q)).map fun i =>
        ((List.range n).map fun k => getA a (i / q * n + k) * getA b (k * q + i % q)).sum⟩
    else none
  | _, _ => none

/-- Model of `x.reshape(s)`; numpy raises when the element counts disagree. -/
def reshapeArr (a : Arr) (s : Shape) : Option Arr :=
  if prodl a.shape = prodl s then some ⟨s, a.data⟩ else none

/-- Model of `np.expand_dims(a, axis)`: insert a size-1 axis. -/
def expandDims (a : Arr) (j : Nat) : Arr := ⟨a.shape.insertIdx j 1, a.data⟩

/-- Position of the first occurrence of `d` in a list (0 when absent), used
to model `np.argsort` on a permutation. -/
def idxOf (l : List Nat) (d : Nat) : Nat :=
  match l with
  | [] => 0
  | a :: t => if a = d then 0 else idxOf t d + 1

/-- Model of `np.transpose(a, axes)` for a permutation `axes` of the axes. -/
def transposeArr (a : Arr) (axes : List Nat) : Arr :=
  ⟨axes.map fun d => a.shape.getD d 1,
    (List.range (prodl (axes.map fun d => a.shape.getD d 1))).map fun i =>
      getA a (flattenIx a.shape ((List.range a.shape.length).map fun d =>
        (unflatten (axes.map fun d2 => a.shape.getD d2 1) i).getD (idxOf axes d) 0))⟩

/-- Model of `np.argsort(axes)` for a permutation: the position of each value. -/
def argsortL (axes : List Nat) : List Nat :=
  (List.range axes.length).map fun d => idxOf axes d

/-- Model of `x.T` (reverse all axes). -/
def tArr (a : Arr) : Arr := transposeArr a (List.range a.shape.length).reverse

example : unbroadcast ⟨[2], [2, 3]⟩ [1] = ⟨[1], [5]⟩ := by
  norm_num [unbroadcast, dropLead, sumAxisKeep, prodl, unflatten, flattenIx, getA, List.range_succ]
example : unbroadcast ⟨[], [7]⟩ [2] = ⟨[2], [7, 7]⟩ := by
  norm_num [unbroadcast, dropLead, prodl, getA, List.range_succ, List.replicate]
example : unbroadcast ⟨[2, 2], [1, 2, 3, 4]⟩ [2] = ⟨[2], [4, 6]⟩ := by
  simp only [unbroadcast, List.cons_ne_nil, if_false, ite_false]
  norm_num [dropLead, sumAxis0, prodl, getA, List.range_succ]
example : ewise (· * ·) ⟨[1], [5]⟩ ⟨[2], [1, 2]⟩ = some ⟨[2], [5, 10]⟩ := by
  norm_num [ewise, broadcastShapes, bcMerge, srcIndex, prodl, unflatten, flattenIx, getA,
    List.range_succ]
example : matmul2d ⟨[2, 2], [1, 2, 3, 4]⟩ ⟨[2, 1], [1, 1]⟩ = some ⟨[2, 1], [3, 7]⟩ := by
  norm_num [matmul2d, getA, List.range_succ]
example : matmul2d ⟨[2, 3], [1, 2, 3, 4, 5, 6]⟩ ⟨[2, 3], [1, 2, 3, 4, 5, 6]⟩ = none := by
  norm_num [matmul2d]
example : iadd ⟨[2, 2], [0, 0, 0, 0]⟩ ⟨[2], [5, 6]⟩ = some ⟨[2, 2], [5, 6, 5, 6]⟩ := by
  norm_num [iadd, broadcastTo, canBTo, srcIndex, prodl, unflatten, flattenIx, getA,
    List.range_succ, List.zipWith]
example : tArr ⟨[2, 3], [1, 2, 3, 4, 5, 6]⟩ = ⟨[3, 2], [1, 4, 2, 5, 3, 6]⟩ := by
  norm_num [tArr, transposeArr, prodl, unflatten, flattenIx, getA, idxOf, List.range_succ]
example : expandDims ⟨[2], [1, 2]⟩ 0 = ⟨[1, 2], [1, 2]⟩ := by
  norm_num [expandDims]

/-! ### The dynamic operand view

Python operators receive either a `Tensor` or a raw numeric value; `__add__`,
`__sub__`, `__mul__` and `__truediv__` coerce a raw operand with
`Tensor(other)`, while `__matmul__` reads `other.data` directly.  `PyVal`
models that dynamic distinction, and the forward functions below model the
`data` and `requires_grad` of the constructed output node (`none` models the
exception Python/numpy would raise instead of producing an output node). -/

/-- Forward view of a `Tensor`: its data buffer and `requires_grad` flag. -/
structure TensorV where
  data : Arr
  requires_grad : Bool
deriving DecidableEq

/-- A Python operand: either a `Tensor` or a raw numeric value / array. -/
inductive PyVal
  | t (x : TensorV)
  | raw (a : Arr)

/-- Model of `other if isinstance(other, Tensor) else Tensor(other)`: a raw
operand becomes a leaf with the constructor's default `requires_grad=False`. -/
def coerceT : PyVal → TensorV
  | .t x => x
  | .raw a => ⟨a, false⟩

/-- Forward part of `Tensor.__add__`. -/
def tAdd (s : TensorV) (o : PyVal) : Option TensorV :=
  (ewise (· + ·) s.data (coerceT o).data).map fun d =>
    ⟨d, s.requires_grad || (coerceT o).requires_grad⟩

/-- Forward part of `Tensor.__sub__`. -/
def tSub (s : TensorV) (o : PyVal) : Option TensorV :=
  (ewise (· - ·) s.data (coerceT o).data).map fun d =>
    ⟨d, s.requires_grad || (coerceT o).requires_grad⟩

/-- Forward part of `Tensor.__mul__`. -/
def tMul (s : TensorV) (o : PyVal) : Option TensorV :=
  (ewise (· * ·) s.data (coerceT o).data).map fun d =>
    ⟨d, s.requires_grad || (coerceT o).requires_grad⟩

/-- Forward part of `Tensor.__truediv__`.  Rational division stands in for
float division; division by zero (numpy `inf`) is not exercised below. -/
def tDiv (s : TensorV) (o : PyVal) : Option TensorV :=
  (ewise (· / ·) s.data (coerceT o).data).map fun d =>
    ⟨d, s.requires_grad || (coerceT o).requires_grad⟩

/-- Model of `Tensor.__rsub__`, which Python invokes for `s - t` when `s` is a
raw value and `t` a `Tensor`: the source returns `self - other`, so it
computes `t - s`. -/
def tRsub (self : TensorV) (o : PyVal) : Option TensorV := tSub self o

/-- Model of `Tensor.__rtruediv__`: the source returns `self / other`, so it
computes `t / s`. -/
def tRdiv (self : TensorV) (o : PyVal) : Option TensorV := tDiv self o

/-- Model of `Tensor.__matmul__`: no coercion is performed — the source reads
`other.data` directly, so a raw operand raises (`none`); tensor operands go
through `matmul2d`, whose `none` is the shape-mismatch `ShapeError`. -/
def tMatmul (s : TensorV) (o : PyVal) : Option TensorV :=
  match o with
  | .t x => (matmul2d s.data x.data).map fun d => ⟨d, s.requires_grad || x.requires_grad⟩
  | .raw _ => none

/-! ### The arena model of the graph

Following the spec's design note, the object graph of `Tensor`s is modelled
as an arena: a list of nodes addressed by index, each carrying its forward
data, its `requires_grad` flag, and a tagged operation recording which inputs
produced it.  The tag plus the stored forward data is exactly the state each
Python `_backward` closure captures. -/

/-- The operation that produced a node, with the arena indices of its inputs
(the payload of the spec's tagged backward rule).  `powc`'s constant scalar
exponent is modelled as an integer: `__pow__` asserts an `int`/`float`
exponent, and non-integer real exponents (e.g. `0.5`) have no exact image in
`ℚ`; no claim below depends on them. -/
inductive Op
  | leaf
  | add (i j : Nat)
  | sub (i j : Nat)
  | neg (i : Nat)
  | mul (i j : Nat)
  | div (i j : Nat)
  | powc (i : Nat) (p : ℤ)
  | matmul (i j : Nat)
  | sumA (i : Nat) (axis : Option Nat) (keepdims : Bool)
  | meanA (i : Nat) (axis : Option Nat) (keepdims : Bool)
  | relu (i : Nat)
  | reshape (i : Nat)
  | permute (i : Nat) (axes : List Nat)
  | flat (i : Nat)
  | expand (i : Nat)
  | squeezeA (i : Nat)
  | unsqueezeA (i : Nat)
deriving DecidableEq

/-- A graph node: forward data, trainability flag and producing operation. -/
structure GNode where
  data : Arr
  requires_grad : Bool
  op : Op
deriving DecidableEq

/-- The default node a read out of the arena's range returns (never reached
under the closedness hypotheses of the theorems below). -/
def dNode : GNode := ⟨⟨[], []⟩, false, .leaf⟩

/-- Input indices of an operation, modelling the `_children` recorded in
`_prev`.  Python stores `_prev` as a set; every claim below holds for any
iteration order, which the model fixes as the written operand order. -/
def opPreds : Op → List Nat
  | .leaf => []
  | .add i j | .sub i j | .mul i j | .div i j | .matmul i j => [i, j]
  | .neg i | .powc i _ | .sumA i _ _ | .meanA i _ _ | .relu i
  | .reshape i | .permute i _ | .flat i | .expand i | .squeezeA i | .unsqueezeA i => [i]

/-- Predecessor indices of arena node `u`. -/
def gPreds (g : List GNode) (u : Nat) : List Nat := opPreds (g.getD u dNode).op

/-- Accumulate `x` into gradient slot `i` of the buffers (`grads[i] += x`). -/
def accG (st : List Arr) (i : Nat) (x : Arr) : Option (List Arr) :=
  (iadd (st.getD i ⟨[], []⟩) x).map fun a => st.set i a

/-- Subtract `x` from gradient slot `i` (`grads[i] -= x`). -/
def subG (st : List Arr) (i : Nat) (x : Arr) : Option (List Arr) :=
  (isub (st.getD i ⟨[], []⟩) x).map fun a => st.set i a

/-- One backward closure: the gradient updates `tensor._backward()` performs
for the node at index `u`, given the arena `g` and the current gradient
buffers `st` (slot `u` of `st` is `out.grad`).  Each branch transcribes the
`_backward` of the corresponding operation in `tensor.py`, re-reading
`out.grad` before each statement exactly as the Python attribute reads do;
`none` models a numpy exception inside the closure. -/
def stepB (g : List GNode) (u : Nat) (st : List Arr) : Option (List Arr) :=
  let nd := fun i => g.getD i dNode
  let out := fun (s : List Arr) => s.getD u ⟨[], []⟩
  let sGrad := fun (s : List Arr) (i : Nat) => (s.getD i ⟨[], []⟩).shape
  match (nd u).op with
  | .leaf => some st
  | .add i j =>
    (if (nd i).requires_grad then accG st i (unbroadcast (out st) (sGrad st i)) else some st).bind
      fun s1 =>
        if (nd j).requires_grad then accG s1 j (unbroadcast (out s1) (sGrad s1 j)) else some s1
  | .sub i j =>
    (if (nd i).requires_grad then accG st i (unbroadcast (out st) (sGrad st i)) else some st).bind
      fun s1 =>
        if (nd j).requires_grad then subG s1 j (unbroadcast (out s1) (sGrad s1 j)) else some s1
  | .neg i =>
    if (nd i).requires_grad then accG st i (mapArr (fun x => -x) (out st)) else some st
  | .mul i j =>
    (if (nd i).requires_grad then
        (ewise (· * ·) (unbroadcast (nd j).data (sGrad st i))
            (unbroadcast (out st) (sGrad st i))).bind (accG st i)
      else some st).bind fun s1 =>
      if (nd j).requires_grad then
        (ewise (· * ·) (unbroadcast (nd i).data (sGrad s1 j))
            (unbroadcast (out s1) (sGrad s1 j))).bind (accG s1 j)
      else some s1
  | .div i j =>
    (if (nd i).requires_grad then
        (ewise (· * ·) (unbroadcast (mapArr (fun x => 1 / x) (nd j).data) (sGrad st i))
            (unbroadcast (out st) (sGrad st i))).bind (accG st i)
      else some st).bind fun s1 =>
      if (nd j).requires_grad then
        (ewise (fun x y => -x / (y * y)) (nd i).data (nd j).data).bind fun q =>
          (ewise (· * ·) (unbroadcast q (sGrad s1 j))
              (unbroadcast (out s1) (sGrad s1 j))).bind (accG s1 j)
      else some s1
  | .powc i p =>
    if (nd i).requires_grad then
      (ewise (· * ·) (mapArr (fun x => (p : ℚ) * x ^ (p - 1)) (nd i).data) (out st)).bind (accG st i)
    else some st
  | .matmul i j =>
    (if (nd i).requires_grad then (matmul2d (out st) (tArr (nd j).data)).bind (accG st i)
      else some st).bind fun s1 =>
      if (nd j).requires_grad then (matmul2d (tArr (nd i).data) (out s1)).bind (accG s1 j)
      else some s1
  | .sumA i axis kd =>
    if (nd i).requires_grad then
      (broadcastTo (if kd = false ∧ axis.isSome then expandDims (out st) (axis.getD 0) else out st)
          (nd i).data.shape).bind (accG st i)
    else some st
  | .meanA i axis _ =>
    if (nd i).requires_grad then
      accG st i (unbroadcast
        (mapArr (fun x => x / (match axis with
          | none => (prodl (nd i).data.shape : ℚ)
          | some j => ((nd i).data.shape.getD j 1 : ℚ))) (out st))
        (nd i).data.shape)
    else some st
  | .relu i =>
    if (nd i).requires_grad then
      (ewise (· * ·) (out st) (mapArr (fun x => if 0 < x then 1 else 0) (nd i).data)).bind (accG st i)
    else some st
  | .reshape i | .flat i | .squeezeA i | .unsqueezeA i =>
    if (nd i).requires_grad then (reshapeArr (out st) (nd i).data.shape).bind (accG st i)
    else some st
  | .permute i axes =>
    if (nd i).requires_grad then accG st i (transposeArr (out st) (argsortL axes)) else some st
  | .expand i =>
    if (nd i).requires_grad then accG st i (unbroadcast (out st) (nd i).data.shape) else some st

/-! ### The graph executor -/

/-- Option-valued left fold, short-circuiting on `none`. -/
def optFold (f : α → σ → Option σ) : List α → σ → Option σ
  | [], st => some st
  | a :: l, st =>
    match f a st with
    | none => none
    | some st2 => optFold f l st2

/-- Fuel-indexed depth-first traversal, modelling `build_graph` inside
`Tensor.backward`: the state carries `visited` (most recently added first)
and the postorder list `graph`; a node is marked visited before its
predecessors are explored and appended to `graph` after them.  `none` means
the fuel ran out, which never happens for the fuel chosen in `buildGraph`. -/
def dfsNode (p : Nat → List Nat) : Nat → Nat → List Nat × List Nat → Option (List Nat × List Nat)
  | 0, _, _ => none
  | fuel + 1, u, st =>
    if u ∈ st.1 then some st
    else
      match optFold (fun v st2 => dfsNode p fuel v st2) (p u) (u :: st.1, st.2) with
      | none => none
      | some st2 => some (st2.1, st2.2 ++ [u])

/-- Model of `backward`'s graph construction: `build_graph(self)` starting
from the empty visited set, with enough fuel for a graph of `n` nodes. -/
def buildGraph (p : Nat → List Nat) (n root : Nat) : Option (List Nat × List Nat) :=
  dfsNode p (n + 1) root ([], [])

/-- Execution order of the backward pass: `for tensor in reversed(graph)`. -/
def backwardOrder (g : List GNode) (root : Nat) : Option (List Nat) :=
  (buildGraph (gPreds g) g.length root).map fun st => st.2.reverse

/-- Model of `Tensor.backward`: build the dependency graph, then run every
node's backward closure in reverse postorder.  No seeding of any gradient is
performed — the traversal only ever calls the `_backward` closures. -/
def runBackward (g : List GNode) (root : Nat) (st : List Arr) : Option (List Arr) :=
  (backwardOrder g root).bind fun ord => optFold (stepB g) ord st

/-- Reachability along predecessor lists: the nodes `build_graph` reaches
from the root. -/
inductive Reach (p : Nat → List Nat) : Nat → Nat → Prop
  | refl (u : Nat) : Reach p u u
  | step {u v w : Nat} : Reach p u v → w ∈ p v → Reach p u w

/-- Every predecessor index of a node below `n` is again below `n`: the arena
is closed, as Python object graphs are by construction. -/
def ClosedG (p : Nat → List Nat) (n : Nat) : Prop := ∀ u, u < n → ∀ v ∈ p u, v < n

/-- A rank function witnessing acyclicity of the predecessor relation below
`n`: every predecessor has strictly smaller rank.  Forward construction
order provides such a rank for every real `Tensor` graph. -/
def RankedG (p : Nat → List Nat) (n : Nat) (r : Nat → Nat) : Prop :=
  ∀ u, u < n → ∀ v ∈ p u, r v < r u

instance (p : Nat → List Nat) (n : Nat) : Decidable (ClosedG p n) :=
  inferInstanceAs (Decidable (∀ u, u < n → ∀ v ∈ p u, v < n))

instance (p : Nat → List Nat) (n : Nat) (r : Nat → Nat) : Decidable (RankedG p n r) :=
  inferInstanceAs (Decidable (∀ u, u < n → ∀ v ∈ p u, r v < r u))

/-- Invariant of `build_graph`'s state `(visited, graph)`: the postorder list
has no duplicates, lists only visited nodes, is closed under predecessors,
and never lists a node before one of its predecessors. -/
def InvSt (p : Nat → List Nat) (st : List Nat × List Nat) : Prop :=
  st.2.Nodup ∧ (∀ x ∈ st.2, x ∈ st.1) ∧ (∀ x ∈ st.2, ∀ v ∈ p x, v ∈ st.2) ∧
    st.2.Pairwise (fun x y => y ∉ p x)

/-- Precondition for visiting `u`: every visited node reachable from `u` has
already been appended to the postorder list (no in-progress ancestor of the
traversal is reachable from `u` — acyclicity guarantees this). -/
def PreV (p : Nat → List Nat) (u : Nat) (st : List Nat × List Nat) : Prop :=
  ∀ x, Reach p u x → x ∈ st.1 → x ∈ st.2

/-- Context carried through `build_graph`'s loop over the children of `u0`:
every visited node is `u0` itself, an originally-visited node, or already
appended; and the original postorder list is preserved. -/
def LoopCtx (u0 : Nat) (vis0 ord0 : List Nat) (st : List Nat × List Nat) : Prop :=
  (∀ x ∈ st.1, x = u0 ∨ x ∈ vis0 ∨ x ∈ st.2) ∧ (∀ x ∈ ord0, x ∈ st.2)

/-- What one completed `build_graph` call on `u` guarantees relative to its
entry state: the visited set grows and stays duplicate-free, the postorder
list grows by newly visited nodes reachable from `u`, every newly visited
node gets appended, and — under the invariant and precondition — the
invariant is preserved, `u` ends up appended, and everything reachable from
`u` ends up visited. -/
def DfsConcl (p : Nat → List Nat) (u : Nat) (st st' : List Nat × List Nat) : Prop :=
  (∀ x ∈ st.1, x ∈ st'.1) ∧
    (∃ dl, st'.2 = st.2 ++ dl ∧ ∀ x ∈ dl, x ∉ st.1 ∧ Reach p u x) ∧
    (∀ x ∈ st'.1, x ∈ st.1 ∨ x ∈ st'.2) ∧
    (st.1.Nodup → st'.1.Nodup) ∧
    (InvSt p st → PreV p u st →
      InvSt p st' ∧ u ∈ st'.2 ∧ ∀ x, Reach p u x → x ∈ st'.1)

/-- What the loop over the remaining children `l` of `u0` guarantees. -/
def LoopConcl (p : Nat → List Nat) (u0 : Nat) (vis0 ord0 : List Nat) (l : List Nat)
    (st st' : List Nat × List Nat) : Prop :=
  (∀ x ∈ st.1, x ∈ st'.1) ∧
    (∃ dl, st'.2 = st.2 ++ dl ∧ ∀ x ∈ dl, x ∉ st.1 ∧ ∃ v ∈ l, Reach p v x) ∧
    (∀ x ∈ st'.1, x ∈ st.1 ∨ x ∈ st'.2) ∧
    (st.1.Nodup → st'.1.Nodup) ∧
    (InvSt p st → LoopCtx u0 vis0 ord0 st → PreV p u0 (vis0, ord0) →
      InvSt p st' ∧ LoopCtx u0 vis0 ord0 st' ∧
        ∀ v ∈ l, v ∈ st'.2 ∧ ∀ x, Reach p v x → x ∈ st'.1)

/-! ### Spec-side comparison rules

The two definitions below transcribe the backward rules as the spec's
operation table words them, for comparison against the transcription of the
code in `stepB`. -/

/-- Statement of the spec's backward rule for `mul` toward operand `a`: the
Broadcast Reducer applied to the elementwise product as a whole,
`reduce(b_data * g, shape(a))`. -/
def specMulGrad (bData g : Arr) (sa : Shape) : Option Arr :=
  (ewise (· * ·) bData g).map fun q => unbroadcast q sa

/-- Statement of the spec's backward rule for `mean`: the output gradient
broadcast back to the input shape exactly as `sum` does (expanding the
reduced axis if it was collapsed), then divided by the number of elements
reduced over. -/
def specMeanGrad (g : Arr) (sa : Shape) (axis : Option Nat) (kd : Bool) : Option Arr :=
  (broadcastTo (if kd = false ∧ axis.isSome then expandDims g (axis.getD 0) else g) sa).map
    fun q => mapArr (fun x => x / (match axis with
      | none => (prodl sa : ℚ)
      | some j => (sa.getD j 1 : ℚ))) q

/-! ### Concrete scenarios from the spec -/

/-- The computation graph of scenario 1: `a = Tensor([2.0], requires_grad=True)`
(node 0), `b = Tensor([3.0], requires_grad=True)` (node 1), `a*b` (node 2)
and `c = a*b + b` (node 3). -/
def scen1 : List GNode :=
  [⟨⟨[1], [2]⟩, true, .leaf⟩, ⟨⟨[1], [3]⟩, true, .leaf⟩,
   ⟨⟨[1], [6]⟩, true, .mul 0 1⟩, ⟨⟨[1], [9]⟩, true, .add 2 1⟩]

/-- Fresh all-zero gradient buffers for scenario 1, as the `Tensor`
constructor allocates them (`np.zeros_like`). -/
def scen1Zero : List Arr := [⟨[1], [0]⟩, ⟨[1], [0]⟩, ⟨[1], [0]⟩, ⟨[1], [0]⟩]

/-- A broadcasting `mul`: `a` of shape `(1,)` (node 0) times `b = [2.0, 3.0]`
(node 1), output node 2 of shape `(2,)`. -/
def scen2 : List GNode :=
  [⟨⟨[1], [1]⟩, true, .leaf⟩, ⟨⟨[2], [2, 3]⟩, true, .leaf⟩,
   ⟨⟨[2], [2, 3]⟩, true, .mul 0 1⟩]

/-- The graph `a.mean(axis=1)` for `a = [[1,2],[3,4]]`: node 0 is `a`,
node 1 the mean of shape `(2,)`. -/
def scen4 : List GNode :=
  [⟨⟨[2, 2], [1, 2, 3, 4]⟩, true, .leaf⟩,
   ⟨⟨[2], [3/2, 7/2]⟩, true, .meanA 0 (some 1) false⟩]

/-- A re-converging (diamond) graph: `d = (-a) + relu(a)` — node 0 is `a`,
a predecessor of both node 1 and node 2, which re-converge in root node 3. -/
def diamondG : List GNode :=
  [⟨⟨[1], [1]⟩, true, .leaf⟩, ⟨⟨[1], [-1]⟩, true, .neg 0⟩,
   ⟨⟨[1], [1]⟩, true, .relu 0⟩, ⟨⟨[1], [0]⟩, true, .add 1 2⟩]

end Autograd

namespace Autograd

/-! ## Index round-trip lemmas -/

lemma prodl_cons (d : Nat) (s : Shape) : prodl (d :: s) = d * prodl s := rfl

lemma length_unflatten (s : Shape) (i : Nat) : (unflatten s i).length = s.length := by
  induction s generalizing i with
  | nil => rfl
  | cons d ds ih => simp [unflatten, ih]

lemma prodl_pos_of_lt {s : Shape} {i d : Nat} (h : i < d * prodl s) : 0 < prodl s := by
  rcases Nat.eq_zero_or_pos (prodl s) with h0 | h0
  · rw [h0, Nat.mul_zero] at h; omega
  · exact h0

lemma flattenIx_unflatten {s : Shape} {i : Nat} (h : i < prodl s) :
    flattenIx s (unflatten s i) = i := by
  induction s generalizing i with
  | nil =>
    have : i = 0 := Nat.lt_one_iff.mp h
    subst this; rfl
  | cons d ds ih =>
    rw [prodl_cons] at h
    have hP : 0 < prodl ds := prodl_pos_of_lt h
    simp only [unflatten, flattenIx]
    rw [ih (Nat.mod_lt _ hP), Nat.mul_comm]
    exact Nat.div_add_mod i (prodl ds)

lemma unflatten_coord_zero {s : Shape} {i : Nat} (h : i < prodl s) :
    List.zipWith (fun d ci => if d = 1 then 0 else ci) s (unflatten s i) = unflatten s i := by
  induction s generalizing i with
  | nil => rfl
  | cons d ds ih =>
    rw [prodl_cons] at h
    have hP : 0 < prodl ds := prodl_pos_of_lt h
    simp only [unflatten, List.zipWith]
    rw [ih (Nat.mod_lt _ hP)]
    by_cases hd : d = 1
    · subst hd
      rw [Nat.one_mul] at h
      simp [Nat.div_eq_of_lt h]
    · simp [hd]

lemma srcIndex_unflatten_self {s : Shape} {i : Nat} (h : i < prodl s) :
    srcIndex s (unflatten s i) = i := by
  unfold srcIndex
  rw [length_unflatten, Nat.sub_self, List.drop_zero, unflatten_coord_zero h,
    flattenIx_unflatten h]

lemma map_getD_range (l : List ℚ) : (List.range l.length).map (fun i => l.getD i 0) = l := by
  induction l with
  | nil => rfl
  | cons a t ih =>
    rw [List.length_cons, List.range_succ_eq_map, List.map_cons, List.map_map]
    simp only [List.getD_cons_zero, Function.comp_def, List.getD_cons_succ]
    rw [ih]

lemma getD_map_range (f : Nat → ℚ) {n k : Nat} (h : k < n) :
    ((List.range n).map f).getD k 0 = f k := by
  rw [List.getD_eq_getElem?_getD, List.getElem?_map, List.getElem?_range h]
  rfl

lemma zipWith_add_getD (l1 l2 : List ℚ) (k : Nat) (h1 : k < l1.length) (h2 : k < l2.length) :
    (List.zipWith (· + ·) l1 l2).getD k 0 = l1.getD k 0 + l2.getD k 0 := by
  induction l1 generalizing l2 k with
  | nil => simp at h1
  | cons a t ih =>
    cases l2 with
    | nil => simp at h2
    | cons b t2 =>
      cases k with
      | zero => simp
      | succ k =>
        simp only [List.zipWith, List.getD_cons_succ]
        exact ih t2 k (by simpa using h1) (by simpa using h2)

lemma bcMerge_self (r : List Nat) : bcMerge r r = some r := by
  induction r with
  | nil => rfl
  | cons a t ih => simp [bcMerge, ih]

lemma broadcastShapes_self (s : Shape) : broadcastShapes s s = some s := by
  simp [broadcastShapes, bcMerge_self]

lemma canBTo_self (r : List Nat) : canBTo r r = true := by
  induction r with
  | nil => rfl
  | cons a t ih => simp [canBTo, ih]

lemma broadcastTo_self {x : Arr} (hw : WFA x) : broadcastTo x x.shape = some x := by
  obtain ⟨sh, d⟩ := x
  simp only [WFA] at hw
  unfold broadcastTo
  rw [canBTo_self]
  simp only [if_true]
  congr 1
  congr 1
  calc (List.range (prodl sh)).map (fun i => getA ⟨sh, d⟩ (srcIndex sh (unflatten sh i)))
      = (List.range (prodl sh)).map (fun i => d.getD i 0) := by
        apply List.map_congr_left
        intro i hi
        rw [srcIndex_unflatten_self (List.mem_range.mp hi)]
        rfl
    _ = d := by rw [← hw, map_getD_range]

lemma ewise_same_shape (f : ℚ → ℚ → ℚ) (a b : Arr) (hab : b.shape = a.shape) :
    ewise f a b =
      some ⟨a.shape, (List.range (prodl a.shape)).map fun i => f (getA a i) (getA b i)⟩ := by
  unfold ewise
  rw [hab, broadcastShapes_self, Option.map_some']
  congr 2
  apply List.map_congr_left
  intro i hi
  rw [srcIndex_unflatten_self (List.mem_range.mp hi)]

lemma iadd_same_shape (cur x : Arr) (hx : x.shape = cur.shape) (hwx : WFA x) :
    iadd cur x = some ⟨cur.shape, List.zipWith (· + ·) cur.data x.data⟩ := by
  unfold iadd
  rw [← hx, broadcastTo_self hwx, Option.map_some']

lemma getA_mapArr (f : ℚ → ℚ) (a : Arr) (k : Nat) (h : k < a.data.length) :
    getA (mapArr f a) k = f (getA a k) := by
  simp only [getA, mapArr, List.getD_eq_getElem?_getD, List.getElem?_map]
  rw [List.getElem?_eq_getElem h]
  rfl

/-! ## Lemmas about the graph executor's traversal -/

lemma Reach.head {p : Nat → List Nat} {u v x : Nat} (hv : v ∈ p u) (h : Reach p v x) :
    Reach p u x := by
  induction h with
  | refl => exact Reach.step (Reach.refl u) hv
  | step _ h2 ih => exact Reach.step ih h2

lemma Reach.rank_le {p : Nat → List Nat} {n : Nat} {r : Nat → Nat} (hr : RankedG p n r)
    (hcl : ClosedG p n) {u x : Nat} (hu : u < n) (h : Reach p u x) : r x ≤ r u ∧ x < n := by
  induction h with
  | refl => exact ⟨le_refl _, hu⟩
  | step _ h2 ih =>
    obtain ⟨hle, hlt⟩ := ih
    exact ⟨le_of_lt (lt_of_lt_of_le (hr _ hlt _ h2) hle), hcl _ hlt _ h2⟩

lemma reach_mem_of_closed {p : Nat → List Nat} {ord : List Nat}
    (hclo : ∀ x ∈ ord, ∀ v ∈ p x, v ∈ ord) {u x : Nat} (hu : u ∈ ord) (h : Reach p u x) :
    x ∈ ord := by
  induction h with
  | refl => exact hu
  | step _ h2 ih => exact hclo _ ih _ h2

lemma Reach.cases_head {p : Nat → List Nat} {u x : Nat} (h : Reach p u x) :
    x = u ∨ ∃ v ∈ p u, Reach p v x := by
  induction h with
  | refl => exact Or.inl rfl
  | step _ h2 ih =>
    rcases ih with rfl | ⟨z, hz, hrzv⟩
    · exact Or.inr ⟨_, h2, Reach.refl _⟩
    · exact Or.inr ⟨z, hz, Reach.step hrzv h2⟩

lemma optFold_dfs {p : Nat → List Nat} {n : Nat} {r : Nat → Nat} (hcl : ClosedG p n)
    (hr : RankedG p n r) (f : Nat) (u0 : Nat) (hu0 : u0 < n) (vis0 ord0 : List Nat)
    (hS : ∀ u st st', u < n → dfsNode p f u st = some st' → DfsConcl p u st st') :
    ∀ l st st', (∀ v ∈ l, v ∈ p u0) →
      optFold (fun v s => dfsNode p f v s) l st = some st' →
      LoopConcl p u0 vis0 ord0 l st st' := by
  intro l
  induction l with
  | nil =>
    intro st st' _ h
    obtain rfl : st = st' := by simpa [optFold] using h
    exact ⟨fun x hx => hx, ⟨[], by simp, by simp⟩, fun x hx => Or.inl hx, id,
      fun hI hC _ => ⟨hI, hC, by simp⟩⟩
  | cons v vs ih =>
    intro st st' hl h
    rw [optFold] at h
    cases hmid : dfsNode p f v st with
    | none => rw [hmid] at h; exact absurd h (by simp)
    | some stm =>
      rw [hmid] at h
      have hv : v ∈ p u0 := hl v (List.mem_cons_self _ _)
      have hvn : v < n := hcl u0 hu0 v hv
      obtain ⟨a1, ⟨d1, hd1, hd1p⟩, a3, a5, a4⟩ := hS v st stm hvn hmid
      obtain ⟨b1, ⟨d2, hd2, hd2p⟩, b3, b5, b4⟩ :=
        ih stm st' (fun w hw => hl w (List.mem_cons_of_mem _ hw)) h
      refine ⟨fun x hx => b1 x (a1 x hx),
        ⟨d1 ++ d2, by rw [hd2, hd1, List.append_assoc], ?_⟩, ?_, fun hnd => b5 (a5 hnd), ?_⟩
      · intro x hx
        rcases List.mem_append.mp hx with hx1 | hx2
        · exact ⟨(hd1p x hx1).1, ⟨v, List.mem_cons_self _ _, (hd1p x hx1).2⟩⟩
        · refine ⟨fun hxin => (hd2p x hx2).1 (a1 x hxin), ?_⟩
          obtain ⟨w, hw, hrw⟩ := (hd2p x hx2).2
          exact ⟨w, List.mem_cons_of_mem _ hw, hrw⟩
      · intro x hx
        rcases b3 x hx with hx1 | hx2
        · rcases a3 x hx1 with hx3 | hx4
          · exact Or.inl hx3
          · exact Or.inr (by rw [hd2]; exact List.mem_append.mpr (Or.inl hx4))
        · exact Or.inr hx2
      · intro hI hC hPre0
        have hPv : PreV p v st := by
          intro x hrx hxvis
          rcases hC.1 x hxvis with rfl | hx0 | hxord
          · exfalso
            have h1 := (Reach.rank_le hr hcl hvn hrx).1
            have h2 := hr x hu0 v hv
            omega
          · exact hC.2 x (hPre0 x (Reach.head hv hrx) hx0)
          · exact hxord
        obtain ⟨hI1, hu1, hrch1⟩ := a4 hI hPv
        have hCm : LoopCtx u0 vis0 ord0 stm := by
          constructor
          · intro x hx
            rcases a3 x hx with hx1 | hx2
            · rcases hC.1 x hx1 with hh | hh | hh
              · exact Or.inl hh
              · exact Or.inr (Or.inl hh)
              · exact Or.inr (Or.inr (by rw [hd1]; exact List.mem_append.mpr (Or.inl hh)))
            · exact Or.inr (Or.inr hx2)
          · intro x hx
            rw [hd1]; exact List.mem_append.mpr (Or.inl (hC.2 x hx))
        obtain ⟨hI2, hC2, hkids⟩ := b4 hI1 hCm hPre0
        refine ⟨hI2, hC2, ?_⟩
        intro w hw
        rcases List.mem_cons.mp hw with rfl | hwvs
        · exact ⟨by rw [hd2]; exact List.mem_append.mpr (Or.inl hu1),
            fun x hrx => b1 x (hrch1 x hrx)⟩
        · exact hkids w hwvs

lemma dfsNode_concl {p : Nat → List Nat} {n : Nat} {r : Nat → Nat} (hcl : ClosedG p n)
    (hr : RankedG p n r) :
    ∀ f u st st', u < n → dfsNode p f u st = some st' → DfsConcl p u st st' := by
  intro f
  induction f with
  | zero => intro u st st' _ h; exact absurd h (by simp [dfsNode])
  | succ f ih =>
    intro u st st' hu h
    rw [dfsNode] at h
    by_cases hvis : u ∈ st.1
    · rw [if_pos hvis] at h
      obtain rfl : st = st' := by simpa using h
      refine ⟨fun x hx => hx, ⟨[], by simp, by simp⟩, fun x hx => Or.inl hx, id, ?_⟩
      intro hI hPre
      have hu2 : u ∈ st.2 := hPre u (Reach.refl u) hvis
      exact ⟨hI, hu2, fun x hrx => hI.2.1 x (reach_mem_of_closed hI.2.2.1 hu2 hrx)⟩
    · rw [if_neg hvis] at h
      cases hopt : optFold (fun v s => dfsNode p f v s) (p u) (u :: st.1, st.2) with
      | none => rw [hopt] at h; exact absurd h (by simp)
      | some st2 =>
        rw [hopt] at h
        obtain rfl : (st2.1, st2.2 ++ [u]) = st' := by simpa using h
        obtain ⟨b1, ⟨dl, hdl, hdlp⟩, b3, b5, b4⟩ :=
          optFold_dfs hcl hr f u hu st.1 st.2 ih (p u) (u :: st.1, st.2) st2
            (fun v hv => hv) hopt
        have hmono : ∀ x ∈ st.1, x ∈ st2.1 := fun x hx =>
          b1 x (List.mem_cons_of_mem _ hx)
        have hudl : u ∉ dl := fun hx => (hdlp u hx).1 (List.mem_cons_self _ _)
        refine ⟨hmono, ⟨dl ++ [u], by simpa [List.append_assoc] using congrArg (· ++ [u]) hdl,
          ?_⟩, ?_, ?_, ?_⟩
        · intro x hx
          rcases List.mem_append.mp hx with hx1 | hx2
          · obtain ⟨hnv, v, hv, hrvx⟩ := hdlp x hx1
            exact ⟨fun hin => hnv (List.mem_cons_of_mem _ hin), Reach.head hv hrvx⟩
          · obtain rfl : x = u := by simpa using hx2
            exact ⟨hvis, Reach.refl _⟩
        · intro x hx
          rcases b3 x hx with hx1 | hx2
          · rcases List.mem_cons.mp hx1 with rfl | hx3
            · exact Or.inr (List.mem_append.mpr (Or.inr (List.mem_singleton.mpr rfl)))
            · exact Or.inl hx3
          · exact Or.inr (List.mem_append.mpr (Or.inl hx2))
        · intro hnd
          exact b5 (List.nodup_cons.mpr ⟨hvis, hnd⟩)
        · intro hI hPre
          have hIL : InvSt p (u :: st.1, st.2) :=
            ⟨hI.1, fun x hx => List.mem_cons_of_mem _ (hI.2.1 x hx), hI.2.2.1, hI.2.2.2⟩
          have hCL : LoopCtx u st.1 st.2 (u :: st.1, st.2) := by
            refine ⟨?_, fun x hx => hx⟩
            intro x hx
            rcases List.mem_cons.mp hx with rfl | hx2
            · exact Or.inl rfl
            · exact Or.inr (Or.inl hx2)
          obtain ⟨hI2, hC2, hkids⟩ := b4 hIL hCL hPre
          have hun2 : u ∉ st2.2 := by
            rw [hdl]
            intro hx
            rcases List.mem_append.mp hx with hx1 | hx2
            · exact hvis (hI.2.1 u hx1)
            · exact hudl hx2
          refine ⟨⟨?_, ?_, ?_, ?_⟩, List.mem_append.mpr (Or.inr (List.mem_singleton.mpr rfl)),
            ?_⟩
          · rw [List.nodup_append]
            exact ⟨hI2.1, List.nodup_singleton u, fun x hx hx2 =>
              hun2 (by rwa [List.mem_singleton.mp hx2] at hx)⟩
          · intro x hx
            rcases List.mem_append.mp hx with hx1 | hx2
            · exact hI2.2.1 x hx1
            · rw [List.mem_singleton.mp hx2]
              exact b1 u (List.mem_cons_self _ _)
          · intro x hx v hv
            rcases List.mem_append.mp hx with hx1 | hx2
            · exact List.mem_append.mpr (Or.inl (hI2.2.2.1 x hx1 v hv))
            · rw [List.mem_singleton.mp hx2] at hv
              exact List.mem_append.mpr (Or.inl ((hkids v hv).1))
          · rw [List.pairwise_append]
            refine ⟨hI2.2.2.2, List.pairwise_singleton _ _, ?_⟩
            intro x hx y hy
            rw [List.mem_singleton.mp hy]
            intro hup
            exact hun2 (hI2.2.2.1 x hx u hup)
          · intro x hrx
            rcases Reach.cases_head hrx with rfl | ⟨v, hv, hrvx⟩
            · exact b1 x (List.mem_cons_self _ _)
            · exact (hkids v hv).2 x hrvx

lemma nodup_subset_length {l l2 : List Nat} (h : l.Nodup) (hs : ∀ x ∈ l, x ∈ l2) :
    l.length ≤ l2.length := by
  calc l.length = l.toFinset.card := (List.toFinset_card_of_nodup h).symm
    _ ≤ l2.toFinset.card := Finset.card_le_card fun x hx =>
        List.mem_toFinset.mpr (hs x (List.mem_toFinset.mp hx))
    _ ≤ l2.length := l2.toFinset_card_le

lemma mem_of_nodup_bounded_full {l : List Nat} {n : Nat} (hnd : l.Nodup)
    (hb : ∀ x ∈ l, x < n) (hlen : n ≤ l.length) {u : Nat} (hu : u < n) : u ∈ l := by
  have hsub : l.toFinset ⊆ Finset.range n := fun x hx =>
    Finset.mem_range.mpr (hb x (List.mem_toFinset.mp hx))
  have hcard : (Finset.range n).card ≤ l.toFinset.card := by
    rw [Finset.card_range, List.toFinset_card_of_nodup hnd]; exact hlen
  have heq : l.toFinset = Finset.range n := Finset.eq_of_subset_of_card_le hsub hcard
  exact List.mem_toFinset.mp (heq ▸ Finset.mem_range.mpr hu)

lemma dfsNode_total {p : Nat → List Nat} {n : Nat} {r : Nat → Nat} (hcl : ClosedG p n)
    (hr : RankedG p n r) :
    ∀ f u st, u < n → (∀ x ∈ st.1, x < n) → (∀ x ∈ st.2, x < n) → st.1.Nodup →
      n - st.1.length < f → ∃ st', dfsNode p f u st = some st' := by
  intro f
  induction f with
  | zero => intro u st _ _ _ _ hf; omega
  | succ f ih =>
    intro u st hu hb1 hb2 hnd hf
    rw [dfsNode]
    by_cases hvis : u ∈ st.1
    · rw [if_pos hvis]; exact ⟨st, rfl⟩
    · rw [if_neg hvis]
      have hlt : st.1.length < n := by
        by_contra hh
        push_neg at hh
        exact hvis (mem_of_nodup_bounded_full hnd hb1 hh hu)
      have hloop : ∀ l st1, (∀ v ∈ l, v ∈ p u) →
          (∀ x ∈ st1.1, x < n) → (∀ x ∈ st1.2, x < n) → st1.1.Nodup →
          st.1.length + 1 ≤ st1.1.length →
          ∃ st2, optFold (fun v s => dfsNode p f v s) l st1 = some st2 := by
        intro l
        induction l with
        | nil => intro st1 _ _ _ _ _; exact ⟨st1, rfl⟩
        | cons v vs ihl =>
          intro st1 hl hb1l hb2l hndl hlen
          have hvn : v < n := hcl u hu v (hl v (List.mem_cons_self _ _))
          obtain ⟨stm, hstm⟩ := ih v st1 hvn hb1l hb2l hndl (by omega)
          obtain ⟨a1, ⟨dl, hdl, hdlp⟩, a3, a5, _⟩ := dfsNode_concl hcl hr f v st1 stm hvn hstm
          have hb2m : ∀ x ∈ stm.2, x < n := by
            intro x hx
            rw [hdl] at hx
            rcases List.mem_append.mp hx with hx1 | hx2
            · exact hb2l x hx1
            · exact (Reach.rank_le hr hcl hvn (hdlp x hx2).2).2
          have hb1m : ∀ x ∈ stm.1, x < n := by
            intro x hx
            rcases a3 x hx with hx1 | hx2
            · exact hb1l x hx1
            · exact hb2m x hx2
          have hlenm : st.1.length + 1 ≤ stm.1.length :=
            le_trans hlen (nodup_subset_length hndl a1)
          obtain ⟨st2, h2⟩ := ihl stm (fun w hw => hl w (List.mem_cons_of_mem _ hw))
            hb1m hb2m (a5 hndl) hlenm
          refine ⟨st2, ?_⟩
          rw [optFold, hstm]
          exact h2
      obtain ⟨st2, h2⟩ := hloop (p u) (u :: st.1, st.2) (fun v hv => hv)
        (by
          intro x hx
          rcases List.mem_cons.mp hx with rfl | hx2
          · exact hu
          · exact hb1 x hx2)
        hb2 (List.nodup_cons.mpr ⟨hvis, hnd⟩) (by simp)
      rw [h2]
      exact ⟨(st2.1, st2.2 ++ [u]), rfl⟩

lemma backwardOrder_spec (g : List GNode) (root : Nat) (r : Nat → Nat)
    (hroot : root < g.length) (hcl : ClosedG (gPreds g) g.length)
    (hr : RankedG (gPreds g) g.length r) :
    ∃ ord, backwardOrder g root = some ord ∧ ord.Nodup ∧
      (∀ x, x ∈ ord ↔ Reach (gPreds g) root x) ∧
      (∀ x ∈ ord, ∀ v ∈ gPreds g x, v ∈ ord) ∧
      ord.Pairwise (fun a b => a ∉ gPreds g b) := by
  obtain ⟨st', hst'⟩ := dfsNode_total hcl hr (g.length + 1) root ([], []) hroot
    (by simp) (by simp) List.nodup_nil (by omega)
  obtain ⟨_, ⟨dl, hdl, hdlp⟩, a3, _, a4⟩ :=
    dfsNode_concl hcl hr (g.length + 1) root ([], []) st' hroot hst'
  obtain ⟨hI, hroot2, hreach⟩ := a4 ⟨List.nodup_nil, by simp, by simp, List.Pairwise.nil⟩
    (fun x _ hx => absurd hx (by simp))
  refine ⟨st'.2.reverse, ?_, List.nodup_reverse.mpr hI.1, ?_, ?_, ?_⟩
  · unfold backwardOrder buildGraph
    rw [hst']
    rfl
  · intro x
    rw [List.mem_reverse]
    constructor
    · intro hx
      have hxdl : x ∈ dl := by rw [hdl] at hx; simpa using hx
      exact (hdlp x hxdl).2
    · intro hrx
      rcases a3 x (hreach x hrx) with hx1 | hx2
      · exact absurd hx1 (by simp)
      · exact hx2
  · intro x hx v hv
    rw [List.mem_reverse] at hx ⊢
    exact hI.2.2.1 x hx v hv
  · rw [List.pairwise_reverse]
    exact hI.2.2.2

/-! ## Zero-gradient preservation lemmas -/

lemma ZA.getA_eq {a : Arr} (h : ZA a) (i : Nat) : getA a i = 0 := by
  unfold getA
  rw [List.getD_eq_getElem?_getD]
  cases hq : a.data[i]? with
  | none => rfl
  | some q =>
    have hm : q ∈ a.data := List.getElem?_mem hq
    simpa using h q hm

lemma ZA_map_range {s : Shape} {n : Nat} {f : Nat → ℚ} (h : ∀ i, f i = 0) :
    ZA ⟨s, (List.range n).map f⟩ := by
  intro q hq
  obtain ⟨i, _, rfl⟩ := List.mem_map.mp hq
  exact h i

lemma ZA_sumAxis0 {a : Arr} (h : ZA a) : ZA (sumAxis0 a) := by
  obtain ⟨s, l⟩ := a
  cases s with
  | nil => exact h
  | cons d ds =>
    refine ZA_map_range ?_
    intro i
    refine List.sum_eq_zero ?_
    intro x hx
    obtain ⟨k, _, rfl⟩ := List.mem_map.mp hx
    exact h.getA_eq _

lemma ZA_sumAxisKeep {a : Arr} (h : ZA a) (j : Nat) : ZA (sumAxisKeep a j) := by
  refine ZA_map_range ?_
  intro _
  refine List.sum_eq_zero ?_
  intro x hx
  obtain ⟨k, _, rfl⟩ := List.mem_map.mp hx
  exact h.getA_eq _

lemma ZA_dropLead {a : Arr} (h : ZA a) : ∀ k, ZA (dropLead k a) := by
  suffices hh : ∀ k (g : Arr), ZA g → ZA (dropLead k g) from fun k => hh k a h
  intro k
  induction k with
  | zero => intro g hg; exact hg
  | succ k ih => intro g hg; exact ih _ (ZA_sumAxis0 hg)

lemma ZA_unbroadcast {a : Arr} (h : ZA a) (s : Shape) : ZA (unbroadcast a s) := by
  unfold unbroadcast
  have hg0 : ZA (if a.shape = [] then Arr.mk s (List.replicate (prodl s) (getA a 0)) else a) := by
    split
    · intro q hq
      rw [List.eq_of_mem_replicate hq, h.getA_eq]
    · exact h
  have hfold : ∀ (l : List Nat) (g : Arr), ZA g →
      ZA (l.foldl (fun g i => if s.getD i 1 = 1 ∧ g.shape.getD i 1 ≠ 1 then sumAxisKeep g i
        else g) g) := by
    intro l
    induction l with
    | nil => intro g hg; exact hg
    | cons x xs ih =>
      intro g hg
      rw [List.foldl_cons]
      refine ih _ ?_
      split
      · exact ZA_sumAxisKeep hg x
      · exact hg
  exact hfold _ _ (ZA_dropLead hg0 _)

lemma ZA_ewise_right {f : ℚ → ℚ → ℚ} {a b res : Arr} (hb : ZA b) (hf : ∀ x, f x 0 = 0)
    (h : ewise f a b = some res) : ZA res := by
  unfold ewise at h
  cases hbs : broadcastShapes a.shape b.shape with
  | none => rw [hbs] at h; simp at h
  | some s =>
    rw [hbs, Option.map_some'] at h
    obtain rfl := Option.some_inj.mp h
    refine ZA_map_range ?_
    intro i
    rw [hb.getA_eq]
    exact hf _

lemma ZA_ewise_left {f : ℚ → ℚ → ℚ} {a b res : Arr} (ha : ZA a) (hf : ∀ y, f 0 y = 0)
    (h : ewise f a b = some res) : ZA res := by
  unfold ewise at h
  cases hbs : broadcastShapes a.shape b.shape with
  | none => rw [hbs] at h; simp at h
  | some s =>
    rw [hbs, Option.map_some'] at h
    obtain rfl := Option.some_inj.mp h
    refine ZA_map_range ?_
    intro i
    rw [ha.getA_eq]
    exact hf _

lemma ZA_broadcastTo {a res : Arr} (ha : ZA a) {s : Shape} (h : broadcastTo a s = some res) :
    ZA res := by
  unfold broadcastTo at h
  split at h
  · obtain rfl := Option.some_inj.mp h
    exact ZA_map_range fun i => ha.getA_eq _
  · simp at h

lemma ZA_mapArr {f : ℚ → ℚ} {a : Arr} (ha : ZA a) (hf : f 0 = 0) : ZA (mapArr f a) := by
  intro q hq
  obtain ⟨x, hx, rfl⟩ := List.mem_map.mp hq
  rw [ha x hx]
  exact hf

lemma ZA_reshapeArr {a res : Arr} (ha : ZA a) {s : Shape} (h : reshapeArr a s = some res) :
    ZA res := by
  unfold reshapeArr at h
  split at h
  · obtain rfl := Option.some_inj.mp h
    exact ha
  · simp at h

lemma ZA_transposeArr {a : Arr} (ha : ZA a) (axes : List Nat) : ZA (transposeArr a axes) :=
  ZA_map_range fun _ => ha.getA_eq _

lemma ZA_matmul2d_left {a b res : Arr} (ha : ZA a) (h : matmul2d a b = some res) : ZA res := by
  unfold matmul2d at h
  split at h
  · split at h
    · obtain rfl := Option.some_inj.mp h
      refine ZA_map_range ?_
      intro i
      refine List.sum_eq_zero ?_
      intro x hx
      obtain ⟨k, _, rfl⟩ := List.mem_map.mp hx
      rw [ha.getA_eq, zero_mul]
    · simp at h
  · simp at h

lemma ZA_matmul2d_right {a b res : Arr} (hb : ZA b) (h : matmul2d a b = some res) :
    ZA res := by
  unfold matmul2d at h
  split at h
  · split at h
    · obtain rfl := Option.some_inj.mp h
      refine ZA_map_range ?_
      intro i
      refine List.sum_eq_zero ?_
      intro x hx
      obtain ⟨k, _, rfl⟩ := List.mem_map.mp hx
      rw [hb.getA_eq, mul_zero]
    · simp at h
  · simp at h

lemma zipWith_zero {f : ℚ → ℚ → ℚ} (hf : f 0 0 = 0) :
    ∀ l1 l2 : List ℚ, (∀ q ∈ l1, q = 0) → (∀ q ∈ l2, q = 0) →
      ∀ q ∈ List.zipWith f l1 l2, q = 0 := by
  intro l1
  induction l1 with
  | nil => intro l2 _ _ q hq; simp at hq
  | cons a t ih =>
    intro l2 h1 h2 q hq
    cases l2 with
    | nil => simp at hq
    | cons b t2 =>
      rcases List.mem_cons.mp hq with rfl | hq2
      · rw [h1 a (List.mem_cons_self _ _), h2 b (List.mem_cons_self _ _)]; exact hf
      · exact ih t2 (fun z hz => h1 z (List.mem_cons_of_mem _ hz))
          (fun z hz => h2 z (List.mem_cons_of_mem _ hz)) q hq2

lemma getD_set_arr (st : List Arr) (i k : Nat) (a : Arr) :
    (st.set i a).getD k ⟨[], []⟩ =
      if i = k ∧ i < st.length then a else st.getD k ⟨[], []⟩ := by
  rw [List.getD_eq_getElem?_getD, List.getD_eq_getElem?_getD, List.getElem?_set]
  by_cases hik : i = k
  · subst hik
    by_cases hlen : i < st.length
    · simp [hlen]
    · simp [hlen, List.getElem?_eq_none (show st.length ≤ i by omega)]
  · simp [hik]

lemma iadd_zero {cur x res : Arr} (hc : ZA cur) (hx : ZA x) (h : iadd cur x = some res) :
    ZA res := by
  unfold iadd at h
  cases hb : broadcastTo x cur.shape with
  | none => rw [hb] at h; simp at h
  | some x2 =>
    rw [hb, Option.map_some'] at h
    obtain rfl := Option.some_inj.mp h
    exact zipWith_zero (by norm_num) _ _ hc (ZA_broadcastTo hx hb)

lemma isub_zero {cur x res : Arr} (hc : ZA cur) (hx : ZA x) (h : isub cur x = some res) :
    ZA res := by
  unfold isub at h
  cases hb : broadcastTo x cur.shape with
  | none => rw [hb] at h; simp at h
  | some x2 =>
    rw [hb, Option.map_some'] at h
    obtain rfl := Option.some_inj.mp h
    exact zipWith_zero (by norm_num) _ _ hc (ZA_broadcastTo hx hb)

lemma accG_zero_local {st st' : List Arr} {i : Nat} {x : Arr} (h : accG st i x = some st')
    (hx : ZA x) : ∀ k, ZA (st.getD k ⟨[], []⟩) → ZA (st'.getD k ⟨[], []⟩) := by
  unfold accG at h
  cases ha : iadd (st.getD i ⟨[], []⟩) x with
  | none => rw [ha] at h; simp at h
  | some a =>
    rw [ha, Option.map_some'] at h
    obtain rfl := Option.some_inj.mp h
    intro k hk
    rw [getD_set_arr]
    split
    · next hc =>
      obtain ⟨rfl, _⟩ := hc
      exact iadd_zero hk hx ha
    · exact hk

lemma subG_zero_local {st st' : List Arr} {i : Nat} {x : Arr} (h : subG st i x = some st')
    (hx : ZA x) : ∀ k, ZA (st.getD k ⟨[], []⟩) → ZA (st'.getD k ⟨[], []⟩) := by
  unfold subG at h
  cases ha : isub (st.getD i ⟨[], []⟩) x with
  | none => rw [ha] at h; simp at h
  | some a =>
    rw [ha, Option.map_some'] at h
    obtain rfl := Option.some_inj.mp h
    intro k hk
    rw [getD_set_arr]
    split
    · next hc =>
      obtain ⟨rfl, _⟩ := hc
      exact isub_zero hk hx ha
    · exact hk

lemma stepB_zero_local {g : List GNode} {u : Nat} {st st' : List Arr}
    (h : stepB g u st = some st') (hu : ZA (st.getD u ⟨[], []⟩)) :
    ∀ k, ZA (st.getD k ⟨[], []⟩) → ZA (st'.getD k ⟨[], []⟩) := by
  cases hop : (g.getD u dNode).op with
  | leaf =>
    simp only [stepB, hop] at h
    obtain rfl := Option.some_inj.mp h
    exact fun k hk => hk
  | add i j =>
    simp only [stepB, hop] at h
    rw [Option.bind_eq_some] at h
    obtain ⟨s1, h1, h2⟩ := h
    have l1 : ∀ k, ZA (st.getD k ⟨[], []⟩) → ZA (s1.getD k ⟨[], []⟩) := by
      split at h1
      · exact accG_zero_local h1 (ZA_unbroadcast hu _)
      · obtain rfl := Option.some_inj.mp h1; exact fun k hk => hk
    have hu1 : ZA (s1.getD u ⟨[], []⟩) := l1 u hu
    have l2 : ∀ k, ZA (s1.getD k ⟨[], []⟩) → ZA (st'.getD k ⟨[], []⟩) := by
      split at h2
      · exact accG_zero_local h2 (ZA_unbroadcast hu1 _)
      · obtain rfl := Option.some_inj.mp h2; exact fun k hk => hk
    exact fun k hk => l2 k (l1 k hk)
  | sub i j =>
    simp only [stepB, hop] at h
    rw [Option.bind_eq_some] at h
    obtain ⟨s1, h1, h2⟩ := h
    have l1 : ∀ k, ZA (st.getD k ⟨[], []⟩) → ZA (s1.getD k ⟨[], []⟩) := by
      split at h1
      · exact accG_zero_local h1 (ZA_unbroadcast hu _)
      · obtain rfl := Option.some_inj.mp h1; exact fun k hk => hk
    have hu1 : ZA (s1.getD u ⟨[], []⟩) := l1 u hu
    have l2 : ∀ k, ZA (s1.getD k ⟨[], []⟩) → ZA (st'.getD k ⟨[], []⟩) := by
      split at h2
      · exact subG_zero_local h2 (ZA_unbroadcast hu1 _)
      · obtain rfl := Option.some_inj.mp h2; exact fun k hk => hk
    exact fun k hk => l2 k (l1 k hk)
  | neg i =>
    simp only [stepB, hop] at h
    split at h
    · exact accG_zero_local h (ZA_mapArr hu (by norm_num))
    · obtain rfl := Option.some_inj.mp h; exact fun k hk => hk
  | mul i j =>
    simp only [stepB, hop] at h
    rw [Option.bind_eq_some] at h
    obtain ⟨s1, h1, h2⟩ := h
    have l1 : ∀ k, ZA (st.getD k ⟨[], []⟩) → ZA (s1.getD k ⟨[], []⟩) := by
      split at h1
      · rw [Option.bind_eq_some] at h1
        obtain ⟨q, hq, hacc⟩ := h1
        exact accG_zero_local hacc
          (ZA_ewise_right (ZA_unbroadcast hu _) (fun x => mul_zero x) hq)
      · obtain rfl := Option.some_inj.mp h1; exact fun k hk => hk
    have hu1 : ZA (s1.getD u ⟨[], []⟩) := l1 u hu
    have l2 : ∀ k, ZA (s1.getD k ⟨[], []⟩) → ZA (st'.getD k ⟨[], []⟩) := by
      split at h2
      · rw [Option.bind_eq_some] at h2
        obtain ⟨q, hq, hacc⟩ := h2
        exact accG_zero_local hacc
          (ZA_ewise_right (ZA_unbroadcast hu1 _) (fun x => mul_zero x) hq)
      · obtain rfl := Option.some_inj.mp h2; exact fun k hk => hk
    exact fun k hk => l2 k (l1 k hk)
  | div i j =>
    simp only [stepB, hop] at h
    rw [Option.bind_eq_some] at h
    obtain ⟨s1, h1, h2⟩ := h
    have l1 : ∀ k, ZA (st.getD k ⟨[], []⟩) → ZA (s1.getD k ⟨[], []⟩) := by
      split at h1
      · rw [Option.bind_eq_some] at h1
        obtain ⟨q, hq, hacc⟩ := h1
        exact accG_zero_local hacc
          (ZA_ewise_right (ZA_unbroadcast hu _) (fun x => mul_zero x) hq)
      · obtain rfl := Option.some_inj.mp h1; exact fun k hk => hk
    have hu1 : ZA (s1.getD u ⟨[], []⟩) := l1 u hu
    have l2 : ∀ k, ZA (s1.getD k ⟨[], []⟩) → ZA (st'.getD k ⟨[], []⟩) := by
      split at h2
      · rw [Option.bind_eq_some] at h2
        obtain ⟨q1, _, h2b⟩ := h2
        rw [Option.bind_eq_some] at h2b
        obtain ⟨q2, hq2, hacc⟩ := h2b
        exact accG_zero_local hacc
          (ZA_ewise_right (ZA_unbroadcast hu1 _) (fun x => mul_zero x) hq2)
      · obtain rfl := Option.some_inj.mp h2; exact fun k hk => hk
    exact fun k hk => l2 k (l1 k hk)
  | powc i p =>
    simp only [stepB, hop] at h
    split at h
    · rw [Option.bind_eq_some] at h
      obtain ⟨q, hq, hacc⟩ := h
      exact accG_zero_local hacc (ZA_ewise_right hu (fun x => mul_zero x) hq)
    · obtain rfl := Option.some_inj.mp h; exact fun k hk => hk
  | matmul i j =>
    simp only [stepB, hop] at h
    rw [Option.bind_eq_some] at h
    obtain ⟨s1, h1, h2⟩ := h
    have l1 : ∀ k, ZA (st.getD k ⟨[], []⟩) → ZA (s1.getD k ⟨[], []⟩) := by
      split at h1
      · rw [Option.bind_eq_some] at h1
        obtain ⟨q, hq, hacc⟩ := h1
        exact accG_zero_local hacc (ZA_matmul2d_left hu hq)
      · obtain rfl := Option.some_inj.mp h1; exact fun k hk => hk
    have hu1 : ZA (s1.getD u ⟨[], []⟩) := l1 u hu
    have l2 : ∀ k, ZA (s1.getD k ⟨[], []⟩) → ZA (st'.getD k ⟨[], []⟩) := by
      split at h2
      · rw [Option.bind_eq_some] at h2
        obtain ⟨q, hq, hacc⟩ := h2
        exact accG_zero_local hacc (ZA_matmul2d_right hu1 hq)
      · obtain rfl := Option.some_inj.mp h2; exact fun k hk => hk
    exact fun k hk => l2 k (l1 k hk)
  | sumA i axis kd =>
    simp only [stepB, hop] at h
    split at h
    · rw [Option.bind_eq_some] at h
      obtain ⟨q, hq, hacc⟩ := h
      have hif : ZA (if kd = false ∧ axis.isSome then
          expandDims (st.getD u ⟨[], []⟩) (axis.getD 0) else st.getD u ⟨[], []⟩) := by
        split
        · exact hu
        · exact hu
      exact accG_zero_local hacc (ZA_broadcastTo hif hq)
    · obtain rfl := Option.some_inj.mp h; exact fun k hk => hk
  | meanA i axis kd =>
    simp only [stepB, hop] at h
    split at h
    · refine accG_zero_local h (ZA_unbroadcast (ZA_mapArr hu ?_) _)
      exact zero_div _
    · obtain rfl := Option.some_inj.mp h; exact fun k hk => hk
  | relu i =>
    simp only [stepB, hop] at h
    split at h
    · rw [Option.bind_eq_some] at h
      obtain ⟨q, hq, hacc⟩ := h
      exact accG_zero_local hacc (ZA_ewise_left hu (fun y => zero_mul y) hq)
    · obtain rfl := Option.some_inj.mp h; exact fun k hk => hk
  | reshape i =>
    simp only [stepB, hop] at h
    split at h
    · rw [Option.bind_eq_some] at h
      obtain ⟨q, hq, hacc⟩ := h
      exact accG_zero_local hacc (ZA_reshapeArr hu hq)
    · obtain rfl := Option.some_inj.mp h; exact fun k hk => hk
  | flat i =>
    simp only [stepB, hop] at h
    split at h
    · rw [Option.bind_eq_some] at h
      obtain ⟨q, hq, hacc⟩ := h
      exact accG_zero_local hacc (ZA_reshapeArr hu hq)
    · obtain rfl := Option.some_inj.mp h; exact fun k hk => hk
  | squeezeA i =>
    simp only [stepB, hop] at h
    split at h
    · rw [Option.bind_eq_some] at h
      obtain ⟨q, hq, hacc⟩ := h
      exact accG_zero_local hacc (ZA_reshapeArr hu hq)
    · obtain rfl := Option.some_inj.mp h; exact fun k hk => hk
  | unsqueezeA i =>
    simp only [stepB, hop] at h
    split at h
    · rw [Option.bind_eq_some] at h
      obtain ⟨q, hq, hacc⟩ := h
      exact accG_zero_local hacc (ZA_reshapeArr hu hq)
    · obtain rfl := Option.some_inj.mp h; exact fun k hk => hk
  | permute i axes =>
    simp only [stepB, hop] at h
    split at h
    · exact accG_zero_local h (ZA_transposeArr hu _)
    · obtain rfl := Option.some_inj.mp h; exact fun k hk => hk
  | expand i =>
    simp only [stepB, hop] at h
    split at h
    · exact accG_zero_local h (ZA_unbroadcast hu _)
    · obtain rfl := Option.some_inj.mp h; exact fun k hk => hk

lemma accG_getElem? {st st' : List Arr} {i k : Nat} {x : Arr} (h : accG st i x = some st')
    (hik : i ≠ k) : st'[k]? = st[k]? := by
  unfold accG at h
  cases ha : iadd (st.getD i ⟨[], []⟩) x with
  | none => rw [ha] at h; simp at h
  | some a =>
    rw [ha, Option.map_some'] at h
    obtain rfl := Option.some_inj.mp h
    exact List.getElem?_set_ne hik

lemma subG_getElem? {st st' : List Arr} {i k : Nat} {x : Arr} (h : subG st i x = some st')
    (hik : i ≠ k) : st'[k]? = st[k]? := by
  unfold subG at h
  cases ha : isub (st.getD i ⟨[], []⟩) x with
  | none => rw [ha] at h; simp at h
  | some a =>
    rw [ha, Option.map_some'] at h
    obtain rfl := Option.some_inj.mp h
    exact List.getElem?_set_ne hik

lemma stepB_getElem? {g : List GNode} {u k : Nat} {st st' : List Arr}
    (h : stepB g u st = some st') (hk : k ∉ opPreds (g.getD u dNode).op) : st'[k]? = st[k]? := by
  cases hop : (g.getD u dNode).op with
  | leaf =>
    simp only [stepB, hop] at h
    obtain rfl := Option.some_inj.mp h
    rfl
  | add i j =>
    rw [hop] at hk
    simp only [opPreds, List.mem_cons, List.mem_singleton] at hk
    push_neg at hk
    simp only [stepB, hop] at h
    rw [Option.bind_eq_some] at h
    obtain ⟨s1, h1, h2⟩ := h
    have e1 : s1[k]? = st[k]? := by
      split at h1
      · exact accG_getElem? h1 (fun he => hk.1 (he ▸ rfl))
      · obtain rfl := Option.some_inj.mp h1; rfl
    have e2 : st'[k]? = s1[k]? := by
      split at h2
      · exact accG_getElem? h2 (fun he => hk.2.1 (he ▸ rfl))
      · obtain rfl := Option.some_inj.mp h2; rfl
    rw [e2, e1]
  | sub i j =>
    rw [hop] at hk
    simp only [opPreds, List.mem_cons, List.mem_singleton] at hk
    push_neg at hk
    simp only [stepB, hop] at h
    rw [Option.bind_eq_some] at h
    obtain ⟨s1, h1, h2⟩ := h
    have e1 : s1[k]? = st[k]? := by
      split at h1
      · exact accG_getElem? h1 (fun he => hk.1 (he ▸ rfl))
      · obtain rfl := Option.some_inj.mp h1; rfl
    have e2 : st'[k]? = s1[k]? := by
      split at h2
      · exact subG_getElem? h2 (fun he => hk.2.1 (he ▸ rfl))
      · obtain rfl := Option.some_inj.mp h2; rfl
    rw [e2, e1]
  | neg i =>
    rw [hop] at hk
    simp only [opPreds, List.mem_singleton] at hk
    simp only [stepB, hop] at h
    split at h
    · exact accG_getElem? h (fun he => hk (he ▸ rfl))
    · obtain rfl := Option.some_inj.mp h; rfl
  | mul i j =>
    rw [hop] at hk
    simp only [opPreds, List.mem_cons, List.mem_singleton] at hk
    push_neg at hk
    simp only [stepB, hop] at h
    rw [Option.bind_eq_some] at h
    obtain ⟨s1, h1, h2⟩ := h
    have e1 : s1[k]? = st[k]? := by
      split at h1
      · rw [Option.bind_eq_some] at h1
        obtain ⟨q, _, hacc⟩ := h1
        exact accG_getElem? hacc (fun he => hk.1 (he ▸ rfl))
      · obtain rfl := Option.some_inj.mp h1; rfl
    have e2 : st'[k]? = s1[k]? := by
      split at h2
      · rw [Option.bind_eq_some] at h2
        obtain ⟨q, _, hacc⟩ := h2
        exact accG_getElem? hacc (fun he => hk.2.1 (he ▸ rfl))
      · obtain rfl := Option.some_inj.mp h2; rfl
    rw [e2, e1]
  | div i j =>
    rw [hop] at hk
    simp only [opPreds, List.mem_cons, List.mem_singleton] at hk
    push_neg at hk
    simp only [stepB, hop] at h
    rw [Option.bind_eq_some] at h
    obtain ⟨s1, h1, h2⟩ := h
    have e1 : s1[k]? = st[k]? := by
      split at h1
      · rw [Option.bind_eq_some] at h1
        obtain ⟨q, _, hacc⟩ := h1
        exact accG_getElem? hacc (fun he => hk.1 (he ▸ rfl))
      · obtain rfl := Option.some_inj.mp h1; rfl
    have e2 : st'[k]? = s1[k]? := by
      split at h2
      · rw [Option.bind_eq_some] at h2
        obtain ⟨q1, _, h2b⟩ := h2
        rw [Option.bind_eq_some] at h2b
        obtain ⟨q2, _, hacc⟩ := h2b
        exact accG_getElem? hacc (fun he => hk.2.1 (he ▸ rfl))
      · obtain rfl := Option.some_inj.mp h2; rfl
    rw [e2, e1]
  | powc i p =>
    rw [hop] at hk
    simp only [opPreds, List.mem_singleton] at hk
    simp only [stepB, hop] at h
    split at h
    · rw [Option.bind_eq_some] at h
      obtain ⟨q, _, hacc⟩ := h
      exact accG_getElem? hacc (fun he => hk (he ▸ rfl))
    · obtain rfl := Option.some_inj.mp h; rfl
  | matmul i j =>
    rw [hop] at hk
    simp only [opPreds, List.mem_cons, List.mem_singleton] at hk
    push_neg at hk
    simp only [stepB, hop] at h
    rw [Option.bind_eq_some] at h
    obtain ⟨s1, h1, h2⟩ := h
    have e1 : s1[k]? = st[k]? := by
      split at h1
      · rw [Option.bind_eq_some] at h1
        obtain ⟨q, _, hacc⟩ := h1
        exact accG_getElem? hacc (fun he => hk.1 (he ▸ rfl))
      · obtain rfl := Option.some_inj.mp h1; rfl
    have e2 : st'[k]? = s1[k]? := by
      split at h2
      · rw [Option.bind_eq_some] at h2
        obtain ⟨q, _, hacc⟩ := h2
        exact accG_getElem? hacc (fun he => hk.2.1 (he ▸ rfl))
      · obtain rfl := Option.some_inj.mp h2; rfl
    rw [e2, e1]
  | sumA i axis kd =>
    rw [hop] at hk
    simp only [opPreds, List.mem_singleton] at hk
    simp only [stepB, hop] at h
    split at h
    · rw [Option.bind_eq_some] at h
      obtain ⟨q, _, hacc⟩ := h
      exact accG_getElem? hacc (fun he => hk (he ▸ rfl))
    · obtain rfl := Option.some_inj.mp h; rfl
  | meanA i axis kd =>
    rw [hop] at hk
    simp only [opPreds, List.mem_singleton] at hk
    simp only [stepB, hop] at h
    split at h
    · exact accG_getElem? h (fun he => hk (he ▸ rfl))
    · obtain rfl := Option.some_inj.mp h; rfl
  | relu i =>
    rw [hop] at hk
    simp only [opPreds, List.mem_singleton] at hk
    simp only [stepB, hop] at h
    split at h
    · rw [Option.bind_eq_some] at h
      obtain ⟨q, _, hacc⟩ := h
      exact accG_getElem? hacc (fun he => hk (he ▸ rfl))
    · obtain rfl := Option.some_inj.mp h; rfl
  | reshape i =>
    rw [hop] at hk
    simp only [opPreds, List.mem_singleton] at hk
    simp only [stepB, hop] at h
    split at h
    · rw [Option.bind_eq_some] at h
      obtain ⟨q, _, hacc⟩ := h
      exact accG_getElem? hacc (fun he => hk (he ▸ rfl))
    · obtain rfl := Option.some_inj.mp h; rfl
  | flat i =>
    rw [hop] at hk
    simp only [opPreds, List.mem_singleton] at hk
    simp only [stepB, hop] at h
    split at h
    · rw [Option.bind_eq_some] at h
      obtain ⟨q, _, hacc⟩ := h
      exact accG_getElem? hacc (fun he => hk (he ▸ rfl))
    · obtain rfl := Option.some_inj.mp h; rfl
  | squeezeA i =>
    rw [hop] at hk
    simp only [opPreds, List.mem_singleton] at hk
    simp only [stepB, hop] at h
    split at h
    · rw [Option.bind_eq_some] at h
      obtain ⟨q, _, hacc⟩ := h
      exact accG_getElem? hacc (fun he => hk (he ▸ rfl))
    · obtain rfl := Option.some_inj.mp h; rfl
  | unsqueezeA i =>
    rw [hop] at hk
    simp only [opPreds, List.mem_singleton] at hk
    simp only [stepB, hop] at h
    split at h
    · rw [Option.bind_eq_some] at h
      obtain ⟨q, _, hacc⟩ := h
      exact accG_getElem? hacc (fun he => hk (he ▸ rfl))
    · obtain rfl := Option.some_inj.mp h; rfl
  | permute i axes =>
    rw [hop] at hk
    simp only [opPreds, List.mem_singleton] at hk
    simp only [stepB, hop] at h
    split at h
    · exact accG_getElem? h (fun he => hk (he ▸ rfl))
    · obtain rfl := Option.some_inj.mp h; rfl
  | expand i =>
    rw [hop] at hk
    simp only [opPreds, List.mem_singleton] at hk
    simp only [stepB, hop] at h
    split at h
    · exact accG_getElem? h (fun he => hk (he ▸ rfl))
    · obtain rfl := Option.some_inj.mp h; rfl

lemma optFold_stepB_zero_R {g : List GNode} (R : Nat → Prop) :
    ∀ ord st st', optFold (stepB g) ord st = some st' → (∀ u ∈ ord, R u) →
      (∀ k, R k → ZA (st.getD k ⟨[], []⟩)) → ∀ k, R k → ZA (st'.getD k ⟨[], []⟩) := by
  intro ord
  induction ord with
  | nil =>
    intro st st' h _ hz
    rw [optFold] at h
    obtain rfl := Option.some_inj.mp h
    exact hz
  | cons a t ih =>
    intro st st' h hR hz
    rw [optFold] at h
    cases hs : stepB g a st with
    | none => rw [hs] at h; exact absurd h (by simp)
    | some s1 =>
      rw [hs] at h
      have hloc := stepB_zero_local hs (hz a (hR a (List.mem_cons_self _ _)))
      exact ih s1 st' h (fun u hu => hR u (List.mem_cons_of_mem _ hu))
        (fun k hk => hloc k (hz k hk))

lemma optFold_stepB_getElem? {g : List GNode} {k : Nat} :
    ∀ ord st st', optFold (stepB g) ord st = some st' →
      (∀ u ∈ ord, k ∉ opPreds (g.getD u dNode).op) → st'[k]? = st[k]? := by
  intro ord
  induction ord with
  | nil =>
    intro st st' h _
    rw [optFold] at h
    obtain rfl := Option.some_inj.mp h
    rfl
  | cons a t ih =>
    intro st st' h hk
    rw [optFold] at h
    cases hs : stepB g a st with
    | none => rw [hs] at h; exact absurd h (by simp)
    | some s1 =>
      rw [hs] at h
      rw [ih s1 st' h (fun u hu => hk u (List.mem_cons_of_mem _ hu)),
        stepB_getElem? hs (hk a (List.mem_cons_self _ _))]

/-! ## Lemmas for the Broadcast Reducer law -/

lemma shape_scaleArr (c : ℚ) (a : Arr) : (scaleArr c a).shape = a.shape := rfl

lemma shape_btA (v : Arr) (S : Shape) : (btA v S).shape = S := rfl

lemma getA_scaleArr (c : ℚ) (a : Arr) (i : Nat) : getA (scaleArr c a) i = c * getA a i := by
  unfold getA scaleArr
  simp only [List.getD_eq_getElem?_getD, List.getElem?_map]
  cases a.data[i]? <;> simp

lemma scaleArr_one (a : Arr) : scaleArr 1 a = a := by
  unfold scaleArr
  simp

lemma scaleArr_comp (c d : ℚ) (a : Arr) : scaleArr c (scaleArr d a) = scaleArr (c * d) a := by
  unfold scaleArr
  simp only [List.map_map]
  congr 1
  apply List.map_congr_left
  intro x _
  simp [Function.comp, mul_assoc]

lemma getA_mk_range {s : Shape} {n : Nat} {f : Nat → ℚ} {i : Nat} (h : i < n) :
    getA ⟨s, (List.range n).map f⟩ i = f i := getD_map_range f h

lemma btA_self {v : Arr} (hw : WFA v) : btA v v.shape = v := by
  obtain ⟨sh, d⟩ := v
  simp only [WFA] at hw
  unfold btA
  congr 1
  calc (List.range (prodl sh)).map
        (fun i => getA ⟨sh, d⟩ (srcIndex (Arr.mk sh d).shape (unflatten sh i)))
      = (List.range (prodl sh)).map (fun i => d.getD i 0) := by
        apply List.map_congr_left
        intro i hi
        rw [show (Arr.mk sh d).shape = sh from rfl,
          srcIndex_unflatten_self (List.mem_range.mp hi)]
        rfl
    _ = d := by rw [← hw, map_getD_range]

lemma broadcastTo_some {v : Arr} {S : Shape} (h : canBTo v.shape.reverse S.reverse = true) :
    broadcastTo v S = some (btA v S) := by
  unfold broadcastTo btA
  rw [if_pos h]

lemma getD_set_ne_nat (l : List Nat) (j m x d : Nat) (h : j ≠ m) :
    (l.set j x).getD m d = l.getD m d := by
  rw [List.getD_eq_getElem?_getD, List.getD_eq_getElem?_getD, List.getElem?_set_ne h]

lemma getD_set_self_nat (l : List Nat) (j x d : Nat) (h : j < l.length) :
    (l.set j x).getD j d = x := by
  rw [List.getD_eq_getElem?_getD, List.getElem?_set_self h]
  rfl

lemma unflatten_bdd {s : Shape} {i : Nat} (h : i < prodl s) :
    ∀ l, l < s.length → (unflatten s i).getD l 0 < s.getD l 0 := by
  induction s generalizing i with
  | nil => intro l hl; simp at hl
  | cons d ds ih =>
    rw [prodl_cons] at h
    have hP : 0 < prodl ds := prodl_pos_of_lt h
    intro l hl
    cases l with
    | zero =>
      simp only [unflatten, List.getD_cons_zero]
      exact Nat.div_lt_of_lt_mul (by rw [Nat.mul_comm] at h; exact h)
    | succ l =>
      simp only [unflatten, List.getD_cons_succ]
      exact ih (Nat.mod_lt _ hP) l (by simpa using hl)

lemma flattenIx_lt {s : Shape} {c : List Nat} (hlen : c.length = s.length)
    (hb : ∀ l, l < s.length → c.getD l 0 < s.getD l 0) : flattenIx s c < prodl s := by
  induction s generalizing c with
  | nil =>
    cases c with
    | nil => simp [flattenIx, prodl]
    | cons c0 cs => simp at hlen
  | cons d ds ih =>
    cases c with
    | nil => simp at hlen
    | cons c0 cs =>
      simp only [flattenIx, prodl_cons]
      have h0 : c0 < d := by simpa using hb 0 (by simp)
      have hrest : flattenIx ds cs < prodl ds := ih (by simpa using hlen)
        (fun l hl => by simpa using hb (l + 1) (by simpa using hl))
      calc c0 * prodl ds + flattenIx ds cs < c0 * prodl ds + prodl ds := by omega
        _ = (c0 + 1) * prodl ds := by ring
        _ ≤ d * prodl ds := Nat.mul_le_mul_right _ h0

lemma unflatten_flattenIx {s : Shape} {c : List Nat} (hlen : c.length = s.length)
    (hb : ∀ l, l < s.length → c.getD l 0 < s.getD l 0) : unflatten s (flattenIx s c) = c := by
  induction s generalizing c with
  | nil =>
    cases c with
    | nil => rfl
    | cons c0 cs => simp at hlen
  | cons d ds ih =>
    cases c with
    | nil => simp at hlen
    | cons c0 cs =>
      simp only [flattenIx, unflatten]
      have hrest : flattenIx ds cs < prodl ds := flattenIx_lt (by simpa using hlen)
        (fun l hl => by simpa using hb (l + 1) (by simpa using hl))
      have hP : 0 < prodl ds := by omega
      have hdiv : (c0 * prodl ds + flattenIx ds cs) / prodl ds = c0 := by
        rw [Nat.mul_comm c0, Nat.mul_add_div hP, Nat.div_eq_of_lt hrest, Nat.add_zero]
      have hmod : (c0 * prodl ds + flattenIx ds cs) % prodl ds = flattenIx ds cs := by
        rw [Nat.mul_comm c0, Nat.mul_add_mod, Nat.mod_eq_of_lt hrest]
      rw [hdiv, hmod, ih (by simpa using hlen)
        (fun l hl => by simpa using hb (l + 1) (by simpa using hl))]

lemma srcIndex_cons {vs : Shape} {c : List Nat} (k : Nat) (h : vs.length ≤ c.length) :
    srcIndex vs (k :: c) = srcIndex vs c := by
  unfold srcIndex
  congr 2
  rw [List.length_cons]
  have he : c.length + 1 - vs.length = (c.length - vs.length) + 1 := by omega
  rw [he, List.drop_succ_cons]

lemma srcIndex_congr_one {vs c c2 : List Nat} (hl : c.length = vs.length)
    (hl2 : c2.length = vs.length)
    (h : ∀ l, l < vs.length → vs.getD l 1 = 1 ∨ c.getD l 0 = c2.getD l 0) :
    srcIndex vs c = srcIndex vs c2 := by
  have hzip : ∀ (w d d2 : List Nat), d.length = w.length → d2.length = w.length →
      (∀ l, l < w.length → w.getD l 1 = 1 ∨ d.getD l 0 = d2.getD l 0) →
      List.zipWith (fun a ci => if a = 1 then 0 else ci) w d =
        List.zipWith (fun a ci => if a = 1 then 0 else ci) w d2 := by
    intro w
    induction w with
    | nil => intro d d2 _ _ _; simp
    | cons a ws ih =>
      intro d d2 h1 h2 hp
      cases d with
      | nil => simp at h1
      | cons x ds =>
        cases d2 with
        | nil => simp at h2
        | cons y ds2 =>
          simp only [List.zipWith]
          have hhead : (if a = 1 then 0 else x) = if a = 1 then 0 else y := by
            rcases hp 0 (by simp) with ha | hxy
            · simp only [List.getD_cons_zero] at ha
              simp [ha]
            · simp only [List.getD_cons_zero] at hxy
              simp [hxy]
          rw [hhead, ih ds ds2 (by simpa using h1) (by simpa using h2)
            (fun l hl => by simpa using hp (l + 1) (by simpa using hl))]
  unfold srcIndex
  rw [hl, hl2, Nat.sub_self, List.drop_zero, List.drop_zero]
  rw [hzip vs c c2 hl hl2 h]

lemma prodl_append : ∀ L T : Shape, prodl (L ++ T) = prodl L * prodl T := by
  intro L T
  induction L with
  | nil => simp [prodl]
  | cons d L ih =>
    rw [List.cons_append, prodl_cons, prodl_cons, ih]
    ring

lemma prodl_set_mul : ∀ (M : Shape) (s x : Nat), s < M.length →
    prodl (M.set s x) * M.getD s 1 = prodl M * x := by
  intro M
  induction M with
  | nil => intro s x h; simp at h
  | cons d ds ih =>
    intro s x h
    cases s with
    | zero =>
      simp only [List.set_cons_zero, List.getD_cons_zero, prodl_cons]
      ring
    | succ s =>
      simp only [List.set_cons_succ, List.getD_cons_succ, prodl_cons]
      rw [Nat.mul_assoc, ih s x (by simpa using h), ← Nat.mul_assoc]

lemma canBTo_length : ∀ r1 r2 : List Nat, canBTo r1 r2 = true → r1.length ≤ r2.length := by
  intro r1
  induction r1 with
  | nil => intro r2 _; simp
  | cons a s ih =>
    intro r2 h
    cases r2 with
    | nil => simp [canBTo] at h
    | cons b t =>
      simp only [canBTo, Bool.and_eq_true] at h
      simpa using ih t h.2

lemma canBTo_pair : ∀ r1 r2 : List Nat, canBTo r1 r2 = true → ∀ k, k < r1.length →
    r1.getD k 1 = r2.getD k 1 ∨ r1.getD k 1 = 1 := by
  intro r1
  induction r1 with
  | nil => intro r2 _ k hk; simp at hk
  | cons a s ih =>
    intro r2 h k hk
    cases r2 with
    | nil => simp [canBTo] at h
    | cons b t =>
      simp only [canBTo, Bool.and_eq_true, Bool.or_eq_true, decide_eq_true_eq] at h
      cases k with
      | zero =>
        simp only [List.getD_cons_zero]
        exact h.1
      | succ k =>
        simp only [List.getD_cons_succ]
        exact ih t h.2 k (by simpa using hk)

lemma getD_reverse {l : List Nat} {k : Nat} (h : k < l.length) :
    l.reverse.getD k 1 = l.getD (l.length - 1 - k) 1 := by
  rw [List.getD_eq_getElem?_getD, List.getD_eq_getElem?_getD,
    List.getElem?_eq_getElem (by simpa using h),
    List.getElem?_eq_getElem (show l.length - 1 - k < l.length by omega)]
  simp [List.getElem_reverse]

lemma getD_eq_getElem_nat (l : List Nat) (j d : Nat) (h : j < l.length) : l.getD j d = l[j] := by
  rw [List.getD_eq_getElem?_getD, List.getElem?_eq_getElem h]
  rfl

lemma getD_drop_nat (S : List Nat) (d l x : Nat) : (S.drop d).getD l x = S.getD (d + l) x := by
  rw [List.getD_eq_getElem?_getD, List.getD_eq_getElem?_getD, List.getElem?_drop]

lemma sum_map_mul (c : ℚ) (f : Nat → ℚ) : ∀ l : List Nat,
    (l.map fun k => c * f k).sum = c * (l.map f).sum := by
  intro l
  induction l with
  | nil => simp
  | cons a t ih => simp [ih, mul_add]

lemma sum_map_const (C : ℚ) (d : Nat) : ((List.range d).map fun _ => C).sum = d * C := by
  induction d with
  | zero => simp
  | succ d ih =>
    rw [List.range_succ, List.map_append, List.sum_append, ih]
    simp
    ring

lemma sumAxis0_scale (c : ℚ) (a : Arr) : sumAxis0 (scaleArr c a) = scaleArr c (sumAxis0 a) := by
  obtain ⟨s, l⟩ := a
  cases s with
  | nil => rfl
  | cons d ds =>
    show (⟨ds, (List.range (prodl ds)).map fun i =>
        ((List.range d).map fun k =>
          getA (scaleArr c ⟨d :: ds, l⟩) (k * prodl ds + i)).sum⟩ : Arr) = _
    unfold scaleArr
    show _ = (⟨ds, ((List.range (prodl ds)).map fun i =>
        ((List.range d).map fun k => getA ⟨d :: ds, l⟩ (k * prodl ds + i)).sum).map
          fun x => c * x⟩ : Arr)
    congr 1
    rw [List.map_map]
    apply List.map_congr_left
    intro i _
    simp only [Function.comp]
    calc ((List.range d).map fun k => getA (scaleArr c ⟨d :: ds, l⟩) (k * prodl ds + i)).sum
        = ((List.range d).map fun k => c * getA ⟨d :: ds, l⟩ (k * prodl ds + i)).sum := by
          apply congrArg
          apply List.map_congr_left
          intro k _
          exact getA_scaleArr c _ _
      _ = c * ((List.range d).map fun k => getA ⟨d :: ds, l⟩ (k * prodl ds + i)).sum :=
        sum_map_mul c _ _

lemma sumAxisKeep_scale (c : ℚ) (a : Arr) (j : Nat) :
    sumAxisKeep (scaleArr c a) j = scaleArr c (sumAxisKeep a j) := by
  unfold sumAxisKeep
  simp only [shape_scaleArr]
  show _ = scaleArr c ⟨a.shape.set j 1, _⟩
  unfold scaleArr
  congr 1
  rw [List.map_map]
  apply List.map_congr_left
  intro i _
  simp only [Function.comp]
  calc ((List.range (a.shape.getD j 1)).map fun k =>
        getA (scaleArr c a) (flattenIx a.shape ((unflatten (a.shape.set j 1) i).set j k))).sum
      = ((List.range (a.shape.getD j 1)).map fun k =>
          c * getA a (flattenIx a.shape ((unflatten (a.shape.set j 1) i).set j k))).sum := by
        apply congrArg
        apply List.map_congr_left
        intro k _
        exact getA_scaleArr c _ _
    _ = c * ((List.range (a.shape.getD j 1)).map fun k =>
          getA a (flattenIx a.shape ((unflatten (a.shape.set j 1) i).set j k))).sum :=
      sum_map_mul c _ _

lemma dropLead_scale (c : ℚ) : ∀ (k : Nat) (a : Arr),
    dropLead k (scaleArr c a) = scaleArr c (dropLead k a) := by
  intro k
  induction k with
  | zero => intro a; rfl
  | succ k ih =>
    intro a
    show dropLead k (sumAxis0 (scaleArr c a)) = scaleArr c (dropLead k (sumAxis0 a))
    rw [sumAxis0_scale]
    exact ih _

lemma sumAxis0_btA {v : Arr} {d : Nat} {S2 : Shape} (h : v.shape.length ≤ S2.length) :
    sumAxis0 (btA v (d :: S2)) = scaleArr (d : ℚ) (btA v S2) := by
  show (⟨S2, (List.range (prodl S2)).map fun i =>
      ((List.range d).map fun k => getA (btA v (d :: S2)) (k * prodl S2 + i)).sum⟩ : Arr) = _
  unfold scaleArr btA
  congr 1
  rw [List.map_map]
  apply List.map_congr_left
  intro i hi
  have hiP : i < prodl S2 := List.mem_range.mp hi
  have hP : 0 < prodl S2 := by omega
  simp only [Function.comp]
  have hval : ∀ k ∈ List.range d,
      getA (⟨d :: S2, (List.range (prodl (d :: S2))).map fun i2 =>
          getA v (srcIndex v.shape (unflatten (d :: S2) i2))⟩ : Arr) (k * prodl S2 + i) =
        getA v (srcIndex v.shape (unflatten S2 i)) := by
    intro k hk
    have hkd : k < d := List.mem_range.mp hk
    have hlt : k * prodl S2 + i < prodl (d :: S2) := by
      rw [prodl_cons]
      calc k * prodl S2 + i < k * prodl S2 + prodl S2 := by omega
        _ = (k + 1) * prodl S2 := by ring
        _ ≤ d * prodl S2 := Nat.mul_le_mul_right _ hkd
    rw [getA_mk_range hlt]
    have hdiv : (k * prodl S2 + i) / prodl S2 = k := by
      rw [Nat.mul_comm k, Nat.mul_add_div hP, Nat.div_eq_of_lt hiP, Nat.add_zero]
    have hmod : (k * prodl S2 + i) % prodl S2 = i := by
      rw [Nat.mul_comm k, Nat.mul_add_mod, Nat.mod_eq_of_lt hiP]
    have hunf : unflatten (d :: S2) (k * prodl S2 + i) = k :: unflatten S2 i := by
      simp only [unflatten]
      rw [hdiv, hmod]
    rw [hunf, srcIndex_cons _ (le_trans h (le_of_eq (length_unflatten S2 i).symm))]
  rw [List.map_congr_left hval, sum_map_const]

lemma sumAxisKeep_btA {v : Arr} {M : Shape} {j : Nat} (hlen : M.length = v.shape.length)
    (hj : j < M.length) (hvj : v.shape.getD j 1 = 1) :
    sumAxisKeep (btA v M) j = scaleArr ((M.getD j 1 : ℚ)) (btA v (M.set j 1)) := by
  unfold sumAxisKeep
  simp only [shape_btA]
  unfold scaleArr btA
  congr 1
  rw [List.map_map]
  apply List.map_congr_left
  intro i hi
  have hiP : i < prodl (M.set j 1) := List.mem_range.mp hi
  simp only [Function.comp]
  have hval : ∀ k ∈ List.range (M.getD j 1),
      getA (⟨M, (List.range (prodl M)).map fun i2 =>
          getA v (srcIndex v.shape (unflatten M i2))⟩ : Arr)
        (flattenIx M ((unflatten (M.set j 1) i).set j k)) =
        getA v (srcIndex v.shape (unflatten (M.set j 1) i)) := by
    intro k hk
    have hkd : k < M.getD j 1 := List.mem_range.mp hk
    have hulen : (unflatten (M.set j 1) i).length = M.length := by
      rw [length_unflatten, List.length_set]
    have hclen : ((unflatten (M.set j 1) i).set j k).length = M.length := by
      rw [List.length_set, hulen]
    have hbd : ∀ l, l < M.length →
        ((unflatten (M.set j 1) i).set j k).getD l 0 < M.getD l 0 := by
      intro l hl
      by_cases hlj : l = j
      · subst hlj
        rw [getD_set_self_nat _ _ _ _ (by rw [hulen]; exact hj)]
        calc k < M.getD l 1 := hkd
          _ = M.getD l 0 := by
            rw [getD_eq_getElem_nat _ _ _ hl, getD_eq_getElem_nat _ _ _ hl]
      · rw [getD_set_ne_nat _ _ _ _ _ (fun he => hlj he.symm)]
        have := unflatten_bdd hiP l (by rw [List.length_set]; exact hl)
        rwa [getD_set_ne_nat _ _ _ _ _ (fun he => hlj he.symm)] at this
    have hfl : flattenIx M ((unflatten (M.set j 1) i).set j k) < prodl M :=
      flattenIx_lt hclen hbd
    rw [getA_mk_range hfl, unflatten_flattenIx hclen hbd]
    apply congrArg
    apply srcIndex_congr_one (by rw [hclen, hlen]) (by rw [hulen, hlen])
    intro l hl
    by_cases hlj : l = j
    · subst hlj
      exact Or.inl hvj
    · exact Or.inr (getD_set_ne_nat _ _ _ _ _ (fun he => hlj he.symm))
  rw [List.map_congr_left hval, sum_map_const]

lemma dropLead_btA {v : Arr} : ∀ (L T : Shape), v.shape.length ≤ T.length →
    dropLead L.length (btA v (L ++ T)) = scaleArr ((prodl L : ℚ)) (btA v T) := by
  intro L
  induction L with
  | nil =>
    intro T h
    show btA v T = _
    rw [show ((prodl [] : Nat) : ℚ) = 1 by norm_num [prodl], scaleArr_one]
  | cons d L ih =>
    intro T h
    show dropLead L.length (sumAxis0 (btA v (d :: (L ++ T)))) = _
    rw [sumAxis0_btA (le_trans h (by simp)), dropLead_scale, ih T h, scaleArr_comp]
    congr 1
    rw [prodl_cons]
    push_cast
    ring

lemma foldl_unbroadcast_btA {v : Arr} :
    ∀ (n s : Nat) (M : Shape) (c : ℚ), s + n = v.shape.length → M.length = v.shape.length →
      (∀ l, l < s → M.getD l 1 = v.shape.getD l 1) →
      (∀ l, s ≤ l → l < v.shape.length →
        v.shape.getD l 1 = M.getD l 1 ∨ v.shape.getD l 1 = 1) →
      ∃ c2 : ℚ,
        (List.range' s n).foldl
          (fun g i => if v.shape.getD i 1 = 1 ∧ g.shape.getD i 1 ≠ 1 then sumAxisKeep g i
            else g) (scaleArr c (btA v M)) = scaleArr c2 (btA v v.shape) ∧
        c2 * (prodl v.shape : ℚ) = c * (prodl M : ℚ) := by
  intro n
  induction n with
  | zero =>
    intro s M c hs hlen hp1 hp2
    have hM : M = v.shape := by
      apply List.ext_getElem hlen
      intro l h1 h2
      have hl := hp1 l (by omega)
      rwa [getD_eq_getElem_nat _ _ _ h1, getD_eq_getElem_nat _ _ _ h2] at hl
    subst hM
    exact ⟨c, rfl, rfl⟩
  | succ n ih =>
    intro s M c hs hlen hp1 hp2
    have hsv : s < v.shape.length := by omega
    have hsM : s < M.length := by omega
    rw [List.range'_succ, List.foldl_cons]
    simp only [shape_scaleArr, shape_btA]
    by_cases hc : v.shape.getD s 1 = 1 ∧ M.getD s 1 ≠ 1
    · rw [if_pos hc, sumAxisKeep_scale, sumAxisKeep_btA hlen hsM hc.1, scaleArr_comp]
      obtain ⟨c2, hfold, hfac⟩ := ih (s + 1) (M.set s 1) (c * (M.getD s 1 : ℚ))
        (by omega) (by rw [List.length_set]; exact hlen)
        (by
          intro l hl
          rcases Nat.lt_or_ge l s with h2 | h2
          · rw [getD_set_ne_nat _ _ _ _ _ (by omega)]
            exact hp1 l h2
          · have hls : l = s := by omega
            subst hls
            rw [getD_set_self_nat _ _ _ _ hsM, hc.1])
        (by
          intro l hl hlv
          rw [getD_set_ne_nat _ _ _ _ _ (by omega)]
          exact hp2 l (by omega) hlv)
      refine ⟨c2, hfold, ?_⟩
      rw [hfac]
      have hQ : (prodl (M.set s 1) : ℚ) * (M.getD s 1 : ℚ) = (prodl M : ℚ) := by
        exact_mod_cast congrArg (fun x : Nat => (x : ℚ)) (by simpa using prodl_set_mul M s 1 hsM)
      rw [mul_assoc, mul_comm ((M.getD s 1 : ℚ)), hQ]
    · rw [if_neg hc]
      obtain ⟨c2, hfold, hfac⟩ := ih (s + 1) M c (by omega) hlen
        (by
          intro l hl
          rcases Nat.lt_or_ge l s with h2 | h2
          · exact hp1 l h2
          · have hls : l = s := by omega
            subst hls
            rcases hp2 l (le_refl _) hsv with h3 | h3
            · exact h3.symm
            · push_neg at hc
              rw [hc h3, h3])
        (fun l hl hlv => hp2 l (by omega) hlv)
      exact ⟨c2, hfold, hfac⟩

/-! ## Settling the claims -/

/-- Claim C1, counterexample: in scenario 1 (`c = a*b + b`), calling
`c.backward()` with no manual seeding of `c.grad` leaves every gradient
buffer zero — `a.grad` is `[0.0]`, not the claimed `[3.0]` — because
`backward` only runs the `_backward` closures and never seeds the root. -/
theorem c1_counterexample :
    runBackward scen1 3 scen1Zero = some scen1Zero ∧
      scen1Zero.getD 0 ⟨[], []⟩ ≠ ⟨[1], [3]⟩ := by
  have hord : backwardOrder scen1 3 = some [3, 2, 1, 0] := by decide
  refine ⟨?_, by decide⟩
  simp only [runBackward, hord, Option.some_bind]
  norm_num [optFold, stepB, scen1, scen1Zero, accG, subG, iadd, isub, broadcastTo, canBTo,
    ewise, broadcastShapes, bcMerge, unbroadcast, dropLead, sumAxis0, sumAxisKeep, mapArr,
    srcIndex, flattenIx, unflatten, prodl, getA, dNode, List.range_succ, List.getD, List.set]

/-- Claim C1, amended: `backward()` performs no seeding, so the un-seeded run
of scenario 1 leaves `a.grad == [0.0]` and `b.grad == [0.0]`; after the
caller seeds `c.grad = [1.0]`, the same run produces `a.grad == [3.0]` and
`b.grad == [3.0]` (`= a + 1 = [2.0]` from `a*b` plus `[1.0]` from `+b`; the
spec's `[4.0]` miscomputes the `a*b` contribution as `b` instead of `a`). -/
theorem c1_amended :
    runBackward scen1 3 scen1Zero = some scen1Zero ∧
      runBackward scen1 3 [⟨[1], [0]⟩, ⟨[1], [0]⟩, ⟨[1], [0]⟩, ⟨[1], [1]⟩] =
        some [⟨[1], [3]⟩, ⟨[1], [3]⟩, ⟨[1], [1]⟩, ⟨[1], [1]⟩] := by
  have hord : backwardOrder scen1 3 = some [3, 2, 1, 0] := by decide
  constructor <;>
  · simp only [runBackward, hord, Option.some_bind]
    norm_num [optFold, stepB, scen1, scen1Zero, accG, subG, iadd, isub, broadcastTo, canBTo,
      ewise, broadcastShapes, bcMerge, unbroadcast, dropLead, sumAxis0, sumAxisKeep, mapArr,
      srcIndex, flattenIx, unflatten, prodl, getA, dNode, List.range_succ, List.getD, List.set]

/-- Claim C2: at `a = [1.0]` of shape `(1,)`, `b = [2.0, 3.0]` and output
gradient `g = [1.0, 1.0]`, the backward closure of `mul` accumulates into
`a.grad` the value `unbroadcast(b.data,(1,)) * unbroadcast(g,(1,)) =
[5.0]*[2.0] = [10.0]`, while the spec's rule `reduce(b_data*g, shape(a))`
gives `[5.0]` (the true gradient of `sum(a*b)` in `a`): the code reduces
each factor separately before multiplying instead of reducing the product. -/
theorem c2_code_eval :
    stepB scen2 2 [⟨[1], [0]⟩, ⟨[2], [0, 0]⟩, ⟨[2], [1, 1]⟩] =
        some [⟨[1], [10]⟩, ⟨[2], [1, 1]⟩, ⟨[2], [1, 1]⟩] ∧
      specMulGrad ⟨[2], [2, 3]⟩ ⟨[2], [1, 1]⟩ [1] = some ⟨[1], [5]⟩ ∧
      (Arr.mk [1] [10]) ≠ (Arr.mk [1] [5]) := by
  refine ⟨?_, ?_, by decide⟩ <;>
  · simp only [stepB, specMulGrad, scen2, List.getD, dNode]
    norm_num [accG, subG, iadd, isub, broadcastTo, canBTo, ewise, broadcastShapes, bcMerge,
      unbroadcast, dropLead, sumAxis0, sumAxisKeep, mapArr, srcIndex, flattenIx, unflatten,
      prodl, getA, List.range_succ, List.getD, List.set]

/-- Claim C4: for `a = [[1,2],[3,4]]` and `mean(a, axis=1, keepdims=False)`
with output gradient `[1.0, 2.0]`, the code's backward divides by the right
count 2 but then accumulates `[0.5, 1.0]` broadcast along the leading axis
(`unbroadcast` is a no-op here and `+=` broadcasts), producing
`[[0.5, 1.0], [0.5, 1.0]]`, whereas the claimed rule — broadcast back
expanding the reduced axis, as `sum` does — gives `[[0.5, 0.5], [1.0, 1.0]]`:
the code forgot `np.expand_dims` in `mean`'s backward. -/
theorem c4_code_eval :
    stepB scen4 1 [⟨[2, 2], [0, 0, 0, 0]⟩, ⟨[2], [1, 2]⟩] =
        some [⟨[2, 2], [1/2, 1, 1/2, 1]⟩, ⟨[2], [1, 2]⟩] ∧
      specMeanGrad ⟨[2], [1, 2]⟩ [2, 2] (some 1) false = some ⟨[2, 2], [1/2, 1/2, 1, 1]⟩ ∧
      (Arr.mk [2, 2] [1/2, 1, 1/2, 1]) ≠ (Arr.mk [2, 2] [1/2, 1/2, 1, 1]) := by
  refine ⟨?_, ?_, by norm_num [Arr.mk.injEq]⟩ <;>
  · simp only [stepB, specMeanGrad, scen4, List.getD, dNode]
    norm_num [accG, subG, iadd, isub, broadcastTo, canBTo, ewise, broadcastShapes, bcMerge,
      unbroadcast, dropLead, sumAxis0, sumAxisKeep, mapArr, expandDims, srcIndex, flattenIx,
      unflatten, prodl, getA, List.range_succ, List.getD, List.set]

/-- Claim C5, counterexample: the Broadcast Reducer law fails — expanding
`v = [2.0]` to shape `(2,)` and reducing back to shape `(1,)` sums the two
replicas and returns `[4.0]`, not `v = [2.0]`. -/
theorem c5_counterexample :
    broadcastTo ⟨[1], [2]⟩ [2] = some ⟨[2], [2, 2]⟩ ∧
      unbroadcast ⟨[2], [2, 2]⟩ [1] = ⟨[1], [4]⟩ ∧
      (Arr.mk [1] [4]) ≠ (Arr.mk [1] [2]) := by
  refine ⟨?_, ?_, by decide⟩ <;>
  · norm_num [broadcastTo, canBTo, unbroadcast, dropLead, sumAxis0, sumAxisKeep, srcIndex,
      flattenIx, unflatten, prodl, getA, List.range_succ]

/-- Claim C5, amended: the Broadcast Reducer law holds only up to the
replication factor — for every well-formed value `v` and broadcast-compatible
shape `S`, `reduce(expand_to_shape(v, S), shape(v))` is `v` scaled
elementwise by the factor `prod(S)/prod(shape(v))` (stated division-free as
`c * prod(shape v) = prod S`); it is `v` itself exactly when that factor is
1, i.e. when the expansion replicates nothing. -/
theorem c5_amended (v : Arr) (S : Shape) (hw : WFA v)
    (hcompat : canBTo v.shape.reverse S.reverse = true) :
    ∃ c : ℚ, broadcastTo v S = some (btA v S) ∧
      unbroadcast (btA v S) v.shape = scaleArr c v ∧
      c * (prodl v.shape : ℚ) = (prodl S : ℚ) := by
  have hlen : v.shape.length ≤ S.length := by
    have hcl := canBTo_length _ _ hcompat
    simpa using hcl
  by_cases hS : S = []
  · subst hS
    have hvs : v.shape = [] := by
      have h0 : v.shape.length = 0 := by simpa using hlen
      exact List.eq_nil_of_length_eq_zero h0
    obtain ⟨sh, dta⟩ := v
    have hsh : sh = [] := hvs
    subst hsh
    have hone : dta.length = 1 := hw
    obtain ⟨q, hq⟩ : ∃ q, dta = [q] := by
      cases dta with
      | nil => simp at hone
      | cons a t =>
        cases t with
        | nil => exact ⟨a, rfl⟩
        | cons b t2 => simp at hone
    subst hq
    refine ⟨1, broadcastTo_some hcompat, ?_, by simp [prodl]⟩
    rw [scaleArr_one]
    rfl
  · have hTlen : (S.drop (S.length - v.shape.length)).length = v.shape.length := by
      rw [List.length_drop]; omega
    have hLlen : (S.take (S.length - v.shape.length)).length = S.length - v.shape.length := by
      rw [List.length_take]; omega
    have hLT : S.take (S.length - v.shape.length) ++ S.drop (S.length - v.shape.length) = S :=
      List.take_append_drop _ _
    have hcomp2 : ∀ l, l < v.shape.length →
        v.shape.getD l 1 = (S.drop (S.length - v.shape.length)).getD l 1 ∨
          v.shape.getD l 1 = 1 := by
      intro l hl
      have hk : v.shape.length - 1 - l < v.shape.reverse.length := by
        rw [List.length_reverse]; omega
      have hpair := canBTo_pair _ _ hcompat (v.shape.length - 1 - l) hk
      have e1 : v.shape.reverse.getD (v.shape.length - 1 - l) 1 = v.shape.getD l 1 := by
        rw [getD_reverse (show v.shape.length - 1 - l < v.shape.length by omega)]
        congr 1
        omega
      have e2 : S.reverse.getD (v.shape.length - 1 - l) 1 =
          (S.drop (S.length - v.shape.length)).getD l 1 := by
        rw [getD_reverse (show v.shape.length - 1 - l < S.length by omega), getD_drop_nat]
        congr 1
        omega
      rw [e1, e2] at hpair
      exact hpair
    have hstep1 : unbroadcast (btA v S) v.shape =
        (List.range v.shape.length).foldl
          (fun g i => if v.shape.getD i 1 = 1 ∧ g.shape.getD i 1 ≠ 1 then sumAxisKeep g i
            else g)
          (dropLead ((btA v S).shape.length - v.shape.length) (btA v S)) := by
      unfold unbroadcast
      rw [if_neg (show ¬((btA v S).shape = []) from by simpa [shape_btA] using hS)]
    have hdrop : dropLead ((btA v S).shape.length - v.shape.length) (btA v S) =
        scaleArr ((prodl (S.take (S.length - v.shape.length)) : ℚ))
          (btA v (S.drop (S.length - v.shape.length))) := by
      have hA := dropLead_btA (v := v) (S.take (S.length - v.shape.length))
        (S.drop (S.length - v.shape.length)) (le_of_eq hTlen.symm)
      rw [hLT] at hA
      rw [show (btA v S).shape.length - v.shape.length =
        (S.take (S.length - v.shape.length)).length from by rw [shape_btA, hLlen]]
      exact hA
    obtain ⟨c2, hfold, hfac⟩ := foldl_unbroadcast_btA (v := v) v.shape.length 0
      (S.drop (S.length - v.shape.length)) ((prodl (S.take (S.length - v.shape.length)) : ℚ))
      (by omega) hTlen (fun l hl => absurd hl (Nat.not_lt_zero l))
      (fun l _ hl => hcomp2 l hl)
    refine ⟨c2, broadcastTo_some hcompat, ?_, ?_⟩
    · rw [hstep1, hdrop, List.range_eq_range', hfold, btA_self hw]
    · rw [hfac]
      have hN : prodl (S.take (S.length - v.shape.length)) *
          prodl (S.drop (S.length - v.shape.length)) = prodl S := by
        rw [← prodl_append, hLT]
      exact_mod_cast hN

/-- Witness for `c5_amended` at `v = [2.0]` of shape `(1,)` and `S = (2,)`:
the reduced expansion is `v` scaled by `2`. -/
theorem c5_amended_witness :
    ∃ c : ℚ, broadcastTo ⟨[1], [2]⟩ [2] = some (btA ⟨[1], [2]⟩ [2]) ∧
      unbroadcast (btA ⟨[1], [2]⟩ [2]) (Arr.mk [1] [2]).shape = scaleArr c ⟨[1], [2]⟩ ∧
      c * (prodl (Arr.mk [1] [2]).shape : ℚ) = (prodl [2] : ℚ) :=
  c5_amended ⟨[1], [2]⟩ [2] (by decide) (by decide)

/-- Claim C6: with raw left operand `s = 1.0` and `t = Tensor(2.0)`, Python
dispatches `s - t` to `t.__rsub__(s)`, which the source defines as
`self - other`, so the result is `t.data - s = [2.0 - 1.0] = 1.0` — not the
documented written-order `s - t.data = -1.0` (third conjunct); likewise
`s / t` returns `t.data / s = 2.0` instead of `0.5`. -/
theorem c6_code_eval :
    tRsub ⟨⟨[], [2]⟩, false⟩ (.raw ⟨[], [1]⟩) = some ⟨⟨[], [1]⟩, false⟩ ∧
      tRdiv ⟨⟨[], [2]⟩, false⟩ (.raw ⟨[], [1]⟩) = some ⟨⟨[], [2]⟩, false⟩ ∧
      ewise (· - ·) ⟨[], [1]⟩ ⟨[], [2]⟩ = some ⟨[], [-1]⟩ ∧
      (Arr.mk [] [1]) ≠ (Arr.mk [] [-1]) := by
  refine ⟨?_, ?_, ?_, by decide⟩ <;>
  · norm_num [tRsub, tRdiv, tSub, tDiv, coerceT, ewise, broadcastShapes, bcMerge, srcIndex,
      flattenIx, unflatten, prodl, getA, List.range_succ]

/-- Claim C7, counterexample: `__matmul__` does not coerce — a raw operand
makes it read `other.data` off a non-`Tensor` and fail (`none`), instead of
being promoted to a leaf node. -/
theorem c7_counterexample :
    tMatmul ⟨⟨[1, 1], [1]⟩, false⟩ (.raw ⟨[1, 1], [1]⟩) = none := rfl

/-- Claim C7, amended: the elementwise binary operations `add`, `sub`, `mul`
and `div` do coerce a raw operand into a leaf with `requires_grad=false`
(so the output's flag is just the tensor operand's), but `matmul` performs no
coercion and fails on every raw operand. -/
theorem c7_amended (s : TensorV) (a : Arr) (sh : Shape)
    (h : broadcastShapes s.data.shape a.shape = some sh) :
    (∃ d, tAdd s (.raw a) = some ⟨d, s.requires_grad⟩) ∧
      (∃ d, tSub s (.raw a) = some ⟨d, s.requires_grad⟩) ∧
      (∃ d, tMul s (.raw a) = some ⟨d, s.requires_grad⟩) ∧
      (∃ d, tDiv s (.raw a) = some ⟨d, s.requires_grad⟩) ∧
      tMatmul s (.raw a) = none := by
  have hco : coerceT (.raw a) = ⟨a, false⟩ := rfl
  have hmk : ∀ f : ℚ → ℚ → ℚ, ∃ d, ewise f s.data a = some d := by
    intro f
    simp only [ewise, h, Option.map_some']
    exact ⟨_, rfl⟩
  obtain ⟨d1, h1⟩ := hmk (· + ·)
  obtain ⟨d2, h2⟩ := hmk (· - ·)
  obtain ⟨d3, h3⟩ := hmk (· * ·)
  obtain ⟨d4, h4⟩ := hmk (· / ·)
  refine ⟨⟨d1, ?_⟩, ⟨d2, ?_⟩, ⟨d3, ?_⟩, ⟨d4, ?_⟩, rfl⟩ <;>
    simp [tAdd, tSub, tMul, tDiv, hco, h1, h2, h3, h4]

/-- Witness for `c7_amended` at `s = Tensor([1.0])`, `a = [4.0]`. -/
theorem c7_amended_witness :
    (∃ d, tAdd ⟨⟨[1], [1]⟩, true⟩ (.raw ⟨[1], [4]⟩) = some ⟨d, true⟩) ∧
      (∃ d, tSub ⟨⟨[1], [1]⟩, true⟩ (.raw ⟨[1], [4]⟩) = some ⟨d, true⟩) ∧
      (∃ d, tMul ⟨⟨[1], [1]⟩, true⟩ (.raw ⟨[1], [4]⟩) = some ⟨d, true⟩) ∧
      (∃ d, tDiv ⟨⟨[1], [1]⟩, true⟩ (.raw ⟨[1], [4]⟩) = some ⟨d, true⟩) ∧
      tMatmul ⟨⟨[1], [1]⟩, true⟩ (.raw ⟨[1], [4]⟩) = none :=
  c7_amended ⟨⟨[1], [1]⟩, true⟩ ⟨[1], [4]⟩ [1] (by decide)

/-- Claim C8: `matmul` on rank-2 operands whose inner dimensions disagree
fails with the shape error (`none`) — no output data or node is ever
produced, and no broadcasting reduction is applied to make the shapes fit. -/
theorem c8_matmul_shape (s x : TensorV) (m n p q : Nat)
    (hs : s.data.shape = [m, n]) (hx : x.data.shape = [p, q]) (hnp : n ≠ p) :
    tMatmul s (.t x) = none := by
  simp [tMatmul, matmul2d, hs, hx, hnp]

/-- Claim C3: for every closed, acyclic arena, `backward` executes each node
reachable from the root via predecessors exactly once — the execution list
`backwardOrder` (the reversed depth-first postorder) has no duplicates and
contains exactly the reachable nodes, even when a node is a predecessor of
several downstream nodes — and in that list no node ever appears before a
node it is a predecessor of: when a node's closure runs, every consumer of it
in the graph has already run, so its `grad` buffer is fully accumulated
before it is propagated to its own predecessors. -/
theorem c3_backward_order (g : List GNode) (root : Nat) (r : Nat → Nat)
    (hroot : root < g.length) (hcl : ClosedG (gPreds g) g.length)
    (hr : RankedG (gPreds g) g.length r) :
    ∃ ord, backwardOrder g root = some ord ∧ ord.Nodup ∧
      (∀ x, x ∈ ord ↔ Reach (gPreds g) root x) ∧
      (∀ x ∈ ord, ∀ v ∈ gPreds g x, v ∈ ord) ∧
      ord.Pairwise (fun a b => a ∉ gPreds g b) :=
  backwardOrder_spec g root r hroot hcl hr

/-- Witness for `c3_backward_order`: the diamond graph `(-a) + relu(a)` with
root 3, ranked by the node index itself. -/
theorem c3_backward_order_witness :
    ∃ ord, backwardOrder diamondG 3 = some ord ∧ ord.Nodup ∧
      (∀ x, x ∈ ord ↔ Reach (gPreds diamondG) 3 x) ∧
      (∀ x ∈ ord, ∀ v ∈ gPreds diamondG x, v ∈ ord) ∧
      ord.Pairwise (fun a b => a ∉ gPreds diamondG b) :=
  c3_backward_order diamondG 3 (fun u => u) (by decide) (by decide) (by decide)

/-- Claim C10: `backward()` performs no gradient seeding.  For every closed,
acyclic arena, a completed `runBackward`: (1) never writes the root node's
own gradient buffer — slot `root` is unchanged for arbitrary initial buffers,
because closures only accumulate into predecessors and in an acyclic graph
the root is no reachable node's predecessor; (2) leaves every node not
reachable from the root untouched; and (3) if every node reachable from the
root has an all-zero gradient buffer when `backward()` is called, every
reachable node's buffer is still all-zero afterwards, because each
operation's backward contribution is zero at a zero output gradient (over
`ℚ` every local Jacobian factor is finite). -/
theorem c10_no_implicit_seeding (g : List GNode) (root : Nat) (r : Nat → Nat)
    (st st' : List Arr) (hroot : root < g.length) (hcl : ClosedG (gPreds g) g.length)
    (hr : RankedG (gPreds g) g.length r) (hrun : runBackward g root st = some st') :
    st'[root]? = st[root]? ∧
      (∀ k, ¬ Reach (gPreds g) root k → st'[k]? = st[k]?) ∧
      ((∀ k, Reach (gPreds g) root k → ZA (st.getD k ⟨[], []⟩)) →
        ∀ k, Reach (gPreds g) root k → ZA (st'.getD k ⟨[], []⟩)) := by
  obtain ⟨ord, hord, _, hmem, hclo, _⟩ := backwardOrder_spec g root r hroot hcl hr
  unfold runBackward at hrun
  rw [hord, Option.some_bind] at hrun
  refine ⟨?_, ?_, ?_⟩
  · refine optFold_stepB_getElem? ord st st' hrun ?_
    intro u hu hkp
    have hru : Reach (gPreds g) root u := (hmem u).mp hu
    have hun : u < g.length := (Reach.rank_le hr hcl hroot hru).2
    have h1 : r root < r u := hr u hun root hkp
    have h2 : r u ≤ r root := (Reach.rank_le hr hcl hroot hru).1
    omega
  · intro k hk
    refine optFold_stepB_getElem? ord st st' hrun ?_
    intro u hu hkp
    exact hk ((hmem k).mp (hclo u hu k hkp))
  · intro hz
    exact optFold_stepB_zero_R (fun k => Reach (gPreds g) root k) ord st st' hrun
      (fun u hu => (hmem u).mp hu) hz

/-- Witness for `c10_no_implicit_seeding`: scenario 1 with fresh zero
gradient buffers — the run succeeds, leaves the root's gradient untouched,
and keeps every reachable buffer all-zero. -/
theorem c10_no_implicit_seeding_witness :
    scen1Zero[3]? = scen1Zero[3]? ∧
      (∀ k, ¬ Reach (gPreds scen1) 3 k → scen1Zero[k]? = scen1Zero[k]?) ∧
      ((∀ k, Reach (gPreds scen1) 3 k → ZA (scen1Zero.getD k ⟨[], []⟩)) →
        ∀ k, Reach (gPreds scen1) 3 k → ZA (scen1Zero.getD k ⟨[], []⟩)) :=
  c10_no_implicit_seeding scen1 3 (fun u => u) scen1Zero scen1Zero (by decide) (by decide)
    (by decide)
    (by
      have hord : backwardOrder scen1 3 = some [3, 2, 1, 0] := by decide
      simp only [runBackward, hord, Option.some_bind]
      norm_num [optFold, stepB, scen1, scen1Zero, accG, subG, iadd, isub, broadcastTo, canBTo,
        ewise, broadcastShapes, bcMerge, unbroadcast, dropLead, sumAxis0, sumAxisKeep, mapArr,
        srcIndex, flattenIx, unflatten, prodl, getA, dNode, List.range_succ, List.getD,
        List.set])

/-- Claim C9: for every arena whose node `u` was produced by `relu` of node
`i` with `requires_grad` true, and gradient buffers whose slots `u` and `i`
carry the input's shape, the backward closure succeeds and accumulates into
`a.grad` exactly `g * (a_data > 0)`: elementwise, the new gradient at `k` is
the old one plus the output gradient where `a_data` is strictly positive and
plus `0` elsewhere — in particular unchanged where the input is exactly zero
(the documented tie-break at the boundary). -/
theorem c9_relu_backward (g : List GNode) (u i : Nat) (st : List Arr)
    (hop : (g.getD u dNode).op = .relu i)
    (hrg : (g.getD i dNode).requires_grad = true)
    (hu : (st.getD u ⟨[], []⟩).shape = (g.getD i dNode).data.shape)
    (hi : (st.getD i ⟨[], []⟩).shape = (g.getD i dNode).data.shape)
    (hwi : WFA (st.getD i ⟨[], []⟩)) (hwa : WFA (g.getD i dNode).data) :
    ∃ r, stepB g u st = some (st.set i r) ∧
      r.shape = (g.getD i dNode).data.shape ∧
      (∀ k, k < prodl (g.getD i dNode).data.shape →
        getA r k = getA (st.getD i ⟨[], []⟩) k +
          (if 0 < getA (g.getD i dNode).data k then getA (st.getD u ⟨[], []⟩) k else 0)) ∧
      (∀ k, k < prodl (g.getD i dNode).data.shape → getA (g.getD i dNode).data k = 0 →
        getA r k = getA (st.getD i ⟨[], []⟩) k) := by
  have hmsk : (mapArr (fun x => if 0 < x then (1 : ℚ) else 0) (g.getD i dNode).data).shape =
      (st.getD u ⟨[], []⟩).shape := hu.symm
  have hew := ewise_same_shape (· * ·) (st.getD u ⟨[], []⟩)
    (mapArr (fun x => if 0 < x then (1 : ℚ) else 0) (g.getD i dNode).data) hmsk
  have hwP : WFA (⟨(st.getD u ⟨[], []⟩).shape,
      (List.range (prodl (st.getD u ⟨[], []⟩).shape)).map fun k =>
        getA (st.getD u ⟨[], []⟩) k *
          getA (mapArr (fun x => if 0 < x then (1 : ℚ) else 0) (g.getD i dNode).data) k⟩ : Arr) := by
    simp [WFA]
  have hPsh : (⟨(st.getD u ⟨[], []⟩).shape,
      (List.range (prodl (st.getD u ⟨[], []⟩).shape)).map fun k =>
        getA (st.getD u ⟨[], []⟩) k *
          getA (mapArr (fun x => if 0 < x then (1 : ℚ) else 0) (g.getD i dNode).data) k⟩ :
        Arr).shape = (st.getD i ⟨[], []⟩).shape := hu.trans hi.symm
  have hia := iadd_same_shape (st.getD i ⟨[], []⟩) _ hPsh hwP
  refine ⟨⟨(st.getD i ⟨[], []⟩).shape,
    List.zipWith (· + ·) (st.getD i ⟨[], []⟩).data
      ((List.range (prodl (st.getD u ⟨[], []⟩).shape)).map fun k =>
        getA (st.getD u ⟨[], []⟩) k *
          getA (mapArr (fun x => if 0 < x then (1 : ℚ) else 0) (g.getD i dNode).data) k)⟩,
    ?_, by rw [hi], ?_, ?_⟩
  · simp only [stepB, hop, hrg, if_true, hew, Option.some_bind, accG, hia, Option.map_some']
  · intro k hk
    have h1 : k < (st.getD i ⟨[], []⟩).data.length := by
      rw [hwi, hi]; exact hk
    have h2 : k < ((List.range (prodl (st.getD u ⟨[], []⟩).shape)).map fun k =>
        getA (st.getD u ⟨[], []⟩) k *
          getA (mapArr (fun x => if 0 < x then (1 : ℚ) else 0) (g.getD i dNode).data) k).length := by
      rw [List.length_map, List.length_range, hu]; exact hk
    show (List.zipWith (· + ·) _ _).getD k 0 = _
    rw [zipWith_add_getD _ _ k h1 h2]
    have hkP : k < prodl (st.getD u ⟨[], []⟩).shape := by rw [hu]; exact hk
    rw [getD_map_range _ hkP, getA_mapArr _ _ _ (by rw [hwa]; exact hk)]
    by_cases hpos : 0 < getA (g.getD i dNode).data k
    · simp [hpos, getA]
    · simp [hpos, getA]
  · intro k hk h0
    have h1 : k < (st.getD i ⟨[], []⟩).data.length := by
      rw [hwi, hi]; exact hk
    have h2 : k < ((List.range (prodl (st.getD u ⟨[], []⟩).shape)).map fun k =>
        getA (st.getD u ⟨[], []⟩) k *
          getA (mapArr (fun x => if 0 < x then (1 : ℚ) else 0) (g.getD i dNode).data) k).length := by
      rw [List.length_map, List.length_range, hu]; exact hk
    show (List.zipWith (· + ·) _ _).getD k 0 = _
    rw [zipWith_add_getD _ _ k h1 h2]
    have hkP : k < prodl (st.getD u ⟨[], []⟩).shape := by rw [hu]; exact hk
    rw [getD_map_range _ hkP, getA_mapArr _ _ _ (by rw [hwa]; exact hk), h0]
    simp [getA]

/-- Witness for `c9_relu_backward`: the graph `relu(a)` for
`a = [-1.0, 0.0, 2.0]` with output gradient `[5.0, 6.0, 7.0]`. -/
theorem c9_relu_backward_witness :
    ∃ r, stepB [⟨⟨[3], [-1, 0, 2]⟩, true, .leaf⟩, ⟨⟨[3], [0, 0, 2]⟩, true, .relu 0⟩] 1
        [⟨[3], [0, 0, 0]⟩, ⟨[3], [5, 6, 7]⟩] =
          some ([⟨[3], [0, 0, 0]⟩, ⟨[3], [5, 6, 7]⟩].set 0 r) ∧
      r.shape = ([⟨⟨[3], [-1, 0, 2]⟩, true, .leaf⟩,
          ⟨⟨[3], [0, 0, 2]⟩, true, .relu 0⟩].getD 0 dNode).data.shape ∧
      (∀ k, k < prodl ([⟨⟨[3], [-1, 0, 2]⟩, true, .leaf⟩,
          ⟨⟨[3], [0, 0, 2]⟩, true, .relu 0⟩].getD 0 dNode).data.shape →
        getA r k = getA ([⟨[3], [0, 0, 0]⟩, ⟨[3], [5, 6, 7]⟩].getD 0 ⟨[], []⟩) k +
          (if 0 < getA ([⟨⟨[3], [-1, 0, 2]⟩, true, .leaf⟩,
              ⟨⟨[3], [0, 0, 2]⟩, true, .relu 0⟩].getD 0 dNode).data k then
            getA ([⟨[3], [0, 0, 0]⟩, ⟨[3], [5, 6, 7]⟩].getD 1 ⟨[], []⟩) k else 0)) ∧
      (∀ k, k < prodl ([⟨⟨[3], [-1, 0, 2]⟩, true, .leaf⟩,
          ⟨⟨[3], [0, 0, 2]⟩, true, .relu 0⟩].getD 0 dNode).data.shape →
        getA ([⟨⟨[3], [-1, 0, 2]⟩, true, .leaf⟩,
          ⟨⟨[3], [0, 0, 2]⟩, true, .relu 0⟩].getD 0 dNode).data k = 0 →
        getA r k = getA ([⟨[3], [0, 0, 0]⟩, ⟨[3], [5, 6, 7]⟩].getD 0 ⟨[], []⟩) k) :=
  c9_relu_backward [⟨⟨[3], [-1, 0, 2]⟩, true, .leaf⟩, ⟨⟨[3], [0, 0, 2]⟩, true, .relu 0⟩] 1 0
    [⟨[3], [0, 0, 0]⟩, ⟨[3], [5, 6, 7]⟩] (by decide) (by decide) (by decide) (by decide)
    (by decide) (by decide)

/-- Witness for `c8_matmul_shape`: a `(2,3)` tensor matmul a `(2,3)` tensor
fails with the shape error. -/
theorem c8_matmul_shape_witness :
    tMatmul ⟨⟨[2, 3], [1, 2, 3, 4, 5, 6]⟩, true⟩ (.t ⟨⟨[2, 3], [1, 2, 3, 4, 5, 6]⟩, true⟩) =
      none :=
  c8_matmul_shape _ _ 2 3 2 3 rfl rfl (by decide)

end Autograd
